import Mathlib

/-!
# Verification of the candidate-set Sudoku solver (src/sudoku.c)

This file gives a shallow embedding of the C program into Lean.  A grid is a
flat list of 81 cell values in row-major order (the C code itself casts
between `unsigned int [9][9]` and `unsigned int [81]`); a cell value is a
natural number whose low nine bits encode the candidate set.  The C functions
are translated one by one: in-place mutation becomes explicit state passing,
`while` loops become fuel-indexed recursion (with the fuel chosen so large
that it provably never runs out on the loop's own termination measure), and
the `stderr` side channel of `solve` is modelled by an explicit `err` flag in
its result.
-/

namespace SudokuC

/-- A grid is the flat 81-cell array of candidate sets, row-major. -/
abbrev Grid := List Nat

/-- `NINE_ONES` from the C source: all nine candidate bits set. -/
def NINE_ONES : Nat := 0x1ff

/-- `EMPTY_CELL` from the C source: the blanked cell. -/
def EMPTY_CELL : Nat := 0x00

/-- Row-major flat index of cell `(r, c)`, as in `sudoku[r][c]`. -/
def idx (r c : Nat) : Nat := 9 * r + c

/-- Read `sudoku[r][c]` (out-of-range reads, which the C code never makes,
return 0). -/
def cellGet (g : Grid) (r c : Nat) : Nat := g.getD (idx r c) 0

/-- Write `sudoku[r][c] = v` (out-of-range writes are no-ops). -/
def cellSet (g : Grid) (r c : Nat) (v : Nat) : Grid := g.set (idx r c) v

/-- C `contain`: does the candidate set hold `number`? -/
def contain (original : Nat) (number : Nat) : Bool :=
  original &&& (1 <<< (number - 1)) > 0

/-- C `bitset_add`: add `number` to the candidate set. -/
def bitset_add (original : Nat) (number : Nat) : Nat :=
  original ||| (1 <<< (number - 1))

/-- C `bitset_is_unique`: exactly one of the low nine bits is set (the C
loop tests bits 0 through 8). -/
def bitset_is_unique (original : Nat) : Bool :=
  (List.range 9).countP (fun k => original &&& (1 <<< k) != 0) == 1

/-- C `bitset_next`: smallest `i + 1` with `previous ≤ i < 10` and bit `i`
set, else `-1`. -/
def bitset_next (bitset : Nat) (previous : Nat) : Int :=
  match (List.range' previous (10 - previous)).find?
      (fun i => bitset &&& (1 <<< i) > 0) with
  | some i => (i : Int) + 1
  | none => -1

/-- C `make_bitset`: fold over the rectangle `[row_start, row_end) ×
[col_start, col_end)`, XOR-ing out each resolved cell from the all-ones
mask. -/
def make_bitset (g : Grid) (row_start row_end col_start col_end : Nat) : Nat :=
  (List.range' row_start (row_end - row_start)).foldl (fun mask i =>
    (List.range' col_start (col_end - col_start)).foldl (fun mask j =>
      if bitset_is_unique (cellGet g i j) then
        (mask ^^^ cellGet g i j) &&& NINE_ONES
      else mask) mask) NINE_ONES

/-- C `eliminate_row`: intersect every unresolved cell of the row with the
row mask; report whether anything changed. -/
def eliminate_row (g : Grid) (row_index : Nat) : Grid × Bool :=
  let mask := make_bitset g row_index (row_index + 1) 0 9
  (List.range 9).foldl (fun p j =>
    if !(bitset_is_unique (cellGet p.1 row_index j)) then
      let original := cellGet p.1 row_index j
      let g2 := cellSet p.1 row_index j (original &&& mask)
      (g2, (original != cellGet g2 row_index j) || p.2)
    else p) (g, false)

/-- C `eliminate_col`. -/
def eliminate_col (g : Grid) (col_index : Nat) : Grid × Bool :=
  let mask := make_bitset g 0 9 col_index (col_index + 1)
  (List.range 9).foldl (fun p i =>
    if !(bitset_is_unique (cellGet p.1 i col_index)) then
      let original := cellGet p.1 i col_index
      let g2 := cellSet p.1 i col_index (original &&& mask)
      (g2, (original != cellGet g2 i col_index) || p.2)
    else p) (g, false)

/-- C `eliminate_box`. -/
def eliminate_box (g : Grid) (row_index col_index : Nat) : Grid × Bool :=
  let mask := make_bitset g row_index (row_index + 3) col_index (col_index + 3)
  (List.range' row_index 3).foldl (fun p i =>
    (List.range' col_index 3).foldl (fun p j =>
      if !(bitset_is_unique (cellGet p.1 i j)) then
        let original := cellGet p.1 i j
        let g2 := cellSet p.1 i j (original &&& mask)
        (g2, (original != cellGet g2 i j) || p.2)
      else p) p) (g, false)

/-- C `needs_solving`: some cell is not resolved. -/
def needs_solving (g : Grid) : Bool :=
  (List.range 9).any (fun i =>
    (List.range 9).any (fun j => !(bitset_is_unique (cellGet g i j))))

/-- The common loop body of `is_valid_row` / `is_valid_col` / `is_valid_box`:
walk the region's cells with the accumulating OR-mask of resolved digits,
failing on a zero cell or on a resolved digit already in the mask. -/
def valid_cells : List Nat → Nat → Bool
  | [], _ => true
  | v :: rest, mask =>
    if v == 0 then false
    else if bitset_is_unique v then
      if (v ||| mask) == mask then false
      else valid_cells rest (v ||| mask)
    else valid_cells rest mask

/-- The cells of row `r`, in column order. -/
def rowCells (g : Grid) (r : Nat) : List Nat :=
  (List.range 9).map (fun c => cellGet g r c)

/-- The cells of column `c`, in row order. -/
def colCells (g : Grid) (c : Nat) : List Nat :=
  (List.range 9).map (fun r => cellGet g r c)

/-- The cells of the 3×3 box with top-left corner `(r, c)`, row-major. -/
def boxCells (g : Grid) (r c : Nat) : List Nat :=
  (List.range' r 3).flatMap (fun i =>
    (List.range' c 3).map (fun j => cellGet g i j))

/-- C `is_valid_row`. -/
def is_valid_row (g : Grid) (row : Nat) : Bool :=
  valid_cells (rowCells g row) 0

/-- C `is_valid_col`. -/
def is_valid_col (g : Grid) (col : Nat) : Bool :=
  valid_cells (colCells g col) 0

/-- C `is_valid_box`. -/
def is_valid_box (g : Grid) (row col : Nat) : Bool :=
  valid_cells (boxCells g row col) 0

/-- C `is_valid`: all 9 rows, columns and boxes pass. -/
def is_valid (g : Grid) : Bool :=
  (List.range 9).all (fun i =>
    is_valid_row g i && is_valid_col g i &&
    is_valid_box g ((i / 3) * 3) ((i % 3) * 3))

/-- One pass of `solve`'s loop body: the 9 row eliminations, then the 9
column eliminations, then the 9 box eliminations, accumulating the
change flag. -/
def solve_pass (g : Grid) : Grid × Bool :=
  let p1 := (List.range 9).foldl (fun p row =>
    let q := eliminate_row p.1 row; (q.1, q.2 || p.2)) (g, false)
  let p2 := (List.range 9).foldl (fun p col =>
    let q := eliminate_col p.1 col; (q.1, q.2 || p.2)) p1
  ([0, 3, 6] : List Nat).foldl (fun p row =>
    ([0, 3, 6] : List Nat).foldl (fun p col =>
      let q := eliminate_box p.1 row col; (q.1, q.2 || p.2)) p) p2

/-- The result of `solve`: the returned boolean, the final grid, and whether
the `ERROR` message was written to `stderr`. -/
structure SolveResult where
  ok : Bool
  grid : Grid
  err : Bool
deriving Repr, DecidableEq

/-- Total measure used as fuel: the sum of all 81 cell values.  Every
elimination only clears bits, so a changing pass strictly decreases it. -/
def gridSum (g : Grid) : Nat := ∑ i ∈ Finset.range 81, g.getD i 0

/-- The `while (needs_solving(sudoku))` loop of C `solve`, fuel-indexed.
With fuel `gridSum g + 1` the fuel provably never runs out
(`solve_loop_fuel_enough` below), because each continuing iteration
strictly decreases `gridSum`. -/
def solve_loop : Nat → Grid → SolveResult
  | 0, g => ⟨false, g, false⟩
  | fuel + 1, g =>
    if needs_solving g then
      let p := solve_pass g
      if is_valid p.1 = false then ⟨false, p.1, true⟩
      else if p.2 = false then ⟨false, p.1, false⟩
      else solve_loop fuel p.1
    else ⟨true, g, false⟩

/-- C `solve`: reject an invalid grid up front (printing `ERROR`), else run
the elimination loop. -/
def solve (g : Grid) : SolveResult :=
  if is_valid g then solve_loop (gridSum g + 1) g else ⟨false, g, true⟩

/-! ## Basic lemmas: bitset inclusion and list cell access -/

/-- `sub a b`: every bit of `a` is a bit of `b` (candidate-set inclusion). -/
def sub (a b : Nat) : Prop := a &&& b = a

instance (a b : Nat) : Decidable (sub a b) := by unfold sub; infer_instance

theorem sub_iff_testBit {a b : Nat} :
    sub a b ↔ ∀ k, a.testBit k = true → b.testBit k = true := by
  constructor
  · intro h k hk
    have := congrArg (fun x => x.testBit k) h
    simp only [Nat.testBit_land] at this
    cases hb : b.testBit k
    · rw [hk, hb] at this; simp at this
    · rfl
  · intro h
    apply Nat.eq_of_testBit_eq
    intro k
    simp only [Nat.testBit_land]
    cases ha : a.testBit k
    · simp
    · simp [h k ha]

theorem sub_refl (a : Nat) : sub a a := by
  unfold sub; apply Nat.eq_of_testBit_eq; intro k
  simp [Nat.testBit_land, Bool.and_self]

theorem sub_trans {a b c : Nat} (h₁ : sub a b) (h₂ : sub b c) : sub a c := by
  rw [sub_iff_testBit] at *
  exact fun k hk => h₂ k (h₁ k hk)

theorem sub_and_left (a m : Nat) : sub (a &&& m) a := by
  rw [sub_iff_testBit]
  intro k hk
  simp only [Nat.testBit_land, Bool.and_eq_true] at hk
  exact hk.1

theorem sub_and_right (a m : Nat) : sub (a &&& m) m := by
  rw [sub_iff_testBit]
  intro k hk
  simp only [Nat.testBit_land, Bool.and_eq_true] at hk
  exact hk.2

theorem sub_le {a b : Nat} (h : sub a b) : a ≤ b := by
  unfold sub at h
  calc a = a &&& b := h.symm
  _ ≤ b := Nat.and_le_right

theorem sub_lt {a b : Nat} (h : sub a b) (hne : a ≠ b) : a < b :=
  lt_of_le_of_ne (sub_le h) hne

theorem getD_set_self {l : List Nat} {n : Nat} (h : n < l.length) (v d : Nat) :
    (l.set n v).getD n d = v := by
  rw [List.getD_eq_getElem?_getD, List.getElem?_set_self ]
  · rfl
  · exact h

theorem getD_set_ne {l : List Nat} {n m : Nat} (h : n ≠ m) (v d : Nat) :
    (l.set n v).getD m d = l.getD m d := by
  rw [List.getD_eq_getElem?_getD, List.getElem?_set_ne h, ← List.getD_eq_getElem?_getD]

theorem getD_set_out {l : List Nat} {n : Nat} (h : l.length ≤ n) (v : Nat) :
    (l.set n v) = l :=
  List.set_eq_of_length_le h

/-- Value at the updated position after a `set`, covering both the in-range
and the out-of-range case. -/
theorem getD_set_self' (l : List Nat) (n v d : Nat) :
    (l.set n v).getD n d = if n < l.length then v else l.getD n d := by
  by_cases h : n < l.length
  · simp [h, getD_set_self]
  · rw [if_neg h, getD_set_out (Nat.le_of_not_lt h)]

/-- Generic invariant principle for `List.foldl`. -/
theorem foldl_inv {α β : Type} (P : β → Prop) (f : β → α → β) :
    ∀ (l : List α) (b : β), P b → (∀ b a, P b → a ∈ l → P (f b a)) →
      P (l.foldl f b) := by
  intro l
  induction l with
  | nil => intro b hb _; exact hb
  | cons x xs ih =>
    intro b hb hf
    exact ih (f b x) (hf b x hb (List.mem_cons_self x xs))
      (fun b' a hb' ha => hf b' a hb' (List.mem_cons_of_mem x ha))

/-! ## Monotonicity of elimination -/

/-- Replacing one cell by itself AND-ed with a mask preserves the pointwise
inclusion of the whole grid in a reference grid. -/
theorem cellSet_mask_sub {gc g₀ : Grid}
    (hp : ∀ i, sub (gc.getD i 0) (g₀.getD i 0)) (r j mask : Nat) :
    ∀ i, sub ((cellSet gc r j (cellGet gc r j &&& mask)).getD i 0)
      (g₀.getD i 0) := by
  intro i
  by_cases h : idx r j = i
  · subst h
    unfold cellSet cellGet
    rw [getD_set_self']
    split
    · exact sub_trans (sub_and_left _ _) (hp _)
    · exact hp _
  · unfold cellSet
    rw [getD_set_ne h]
    exact hp i

theorem eliminate_row_sub (g : Grid) (r i : Nat) :
    sub ((eliminate_row g r).1.getD i 0) (g.getD i 0) := by
  have h := foldl_inv (fun p : Grid × Bool => ∀ k, sub (p.1.getD k 0) (g.getD k 0))
    (fun p j =>
      if !(bitset_is_unique (cellGet p.1 r j)) then
        (cellSet p.1 r j (cellGet p.1 r j &&& make_bitset g r (r + 1) 0 9),
         (cellGet p.1 r j !=
           cellGet (cellSet p.1 r j
             (cellGet p.1 r j &&& make_bitset g r (r + 1) 0 9)) r j) || p.2)
      else p)
    (List.range 9) (g, false) (fun _ => sub_refl _) ?step
  · exact h i
  case step =>
    intro p j hp _
    by_cases hU : bitset_is_unique (cellGet p.1 r j)
    · simp only [hU, Bool.not_true, Bool.false_eq_true, if_false]
      exact hp
    · simp only [hU, Bool.not_false, if_true]
      exact cellSet_mask_sub hp r j _

theorem eliminate_col_sub (g : Grid) (c i : Nat) :
    sub ((eliminate_col g c).1.getD i 0) (g.getD i 0) := by
  have h := foldl_inv (fun p : Grid × Bool => ∀ k, sub (p.1.getD k 0) (g.getD k 0))
    (fun p r =>
      if !(bitset_is_unique (cellGet p.1 r c)) then
        (cellSet p.1 r c (cellGet p.1 r c &&& make_bitset g 0 9 c (c + 1)),
         (cellGet p.1 r c !=
           cellGet (cellSet p.1 r c
             (cellGet p.1 r c &&& make_bitset g 0 9 c (c + 1))) r c) || p.2)
      else p)
    (List.range 9) (g, false) (fun _ => sub_refl _) ?step
  · exact h i
  case step =>
    intro p r hp _
    by_cases hU : bitset_is_unique (cellGet p.1 r c)
    · simp only [hU, Bool.not_true, Bool.false_eq_true, if_false]
      exact hp
    · simp only [hU, Bool.not_false, if_true]
      exact cellSet_mask_sub hp r c _

theorem eliminate_box_sub (g : Grid) (a b i : Nat) :
    sub ((eliminate_box g a b).1.getD i 0) (g.getD i 0) := by
  have h := foldl_inv (fun p : Grid × Bool => ∀ k, sub (p.1.getD k 0) (g.getD k 0))
    (fun p r =>
      (List.range' b 3).foldl (fun p j =>
        if !(bitset_is_unique (cellGet p.1 r j)) then
          (cellSet p.1 r j (cellGet p.1 r j &&& make_bitset g a (a + 3) b (b + 3)),
           (cellGet p.1 r j !=
             cellGet (cellSet p.1 r j
               (cellGet p.1 r j &&& make_bitset g a (a + 3) b (b + 3))) r j) || p.2)
        else p) p)
    (List.range' a 3) (g, false) (fun _ => sub_refl _) ?step
  · exact h i
  case step =>
    intro p r hp _
    apply foldl_inv (fun p : Grid × Bool => ∀ k, sub (p.1.getD k 0) (g.getD k 0))
      _ _ _ hp
    intro p' j hp' _
    by_cases hU : bitset_is_unique (cellGet p'.1 r j)
    · simp only [hU, Bool.not_true, Bool.false_eq_true, if_false]
      exact hp'
    · simp only [hU, Bool.not_false, if_true]
      exact cellSet_mask_sub hp' r j _

/-- C4: region elimination is monotone — after `eliminate_row`,
`eliminate_col` or `eliminate_box`, every cell of the grid (inside or
outside the region) holds a subset of the bits it held before. -/
theorem elimination_monotone (g : Grid) (r c a b i : Nat) :
    sub ((eliminate_row g r).1.getD i 0) (g.getD i 0) ∧
    sub ((eliminate_col g c).1.getD i 0) (g.getD i 0) ∧
    sub ((eliminate_box g a b).1.getD i 0) (g.getD i 0) :=
  ⟨eliminate_row_sub g r i, eliminate_col_sub g c i, eliminate_box_sub g a b i⟩

/-- Folding an elimination function (that only shrinks cells) over a list,
accumulating the change flag, keeps every cell inside the reference grid. -/
theorem fold_elim_sub {α : Type} (f : Grid → α → Grid × Bool)
    (hf : ∀ gc a i, sub ((f gc a).1.getD i 0) (gc.getD i 0))
    (l : List α) (p₀ : Grid × Bool) (g₀ : Grid)
    (hp : ∀ i, sub (p₀.1.getD i 0) (g₀.getD i 0)) :
    ∀ i, sub ((l.foldl (fun p x =>
      let q := f p.1 x; (q.1, q.2 || p.2)) p₀).1.getD i 0) (g₀.getD i 0) := by
  apply foldl_inv (fun p : Grid × Bool => ∀ i, sub (p.1.getD i 0) (g₀.getD i 0))
    _ _ _ hp
  intro p a hp' _
  exact fun i => sub_trans (hf p.1 a i) (hp' i)

/-- One full elimination pass keeps every cell inside its previous value. -/
theorem solve_pass_sub (g : Grid) (i : Nat) :
    sub ((solve_pass g).1.getD i 0) (g.getD i 0) := by
  have h1 := fold_elim_sub eliminate_row (fun gc a k => eliminate_row_sub gc a k)
    (List.range 9) (g, false) g (fun _ => sub_refl _)
  have h2 := fold_elim_sub eliminate_col (fun gc a k => eliminate_col_sub gc a k)
    (List.range 9) _ g h1
  have h3 := foldl_inv (fun p : Grid × Bool => ∀ k, sub (p.1.getD k 0) (g.getD k 0))
    (fun p row => ([0, 3, 6] : List Nat).foldl (fun p col =>
      let q := eliminate_box p.1 row col; (q.1, q.2 || p.2)) p)
    ([0, 3, 6] : List Nat) _ h2 ?step
  · exact h3 i
  case step =>
    intro p row hp _
    exact fold_elim_sub (fun gc col => eliminate_box gc row col)
      (fun gc a k => eliminate_box_sub gc row a k) ([0, 3, 6] : List Nat) p g hp

/-- The grid returned by the elimination loop is pointwise included in the
grid it started from. -/
theorem solve_loop_sub : ∀ fuel g i,
    sub ((solve_loop fuel g).grid.getD i 0) (g.getD i 0) := by
  intro fuel
  induction fuel with
  | zero => intro g i; exact sub_refl _
  | succ fuel ih =>
    intro g i
    by_cases hn : needs_solving g
    · simp only [solve_loop, hn, if_true]
      by_cases hv : is_valid (solve_pass g).1 = false
      · simp only [hv, if_true]
        exact solve_pass_sub g i
      · simp only [hv, if_false]
        by_cases hch : (solve_pass g).2 = false
        · simp only [hch, if_true]
          exact solve_pass_sub g i
        · simp only [hch, if_false]
          exact sub_trans (ih (solve_pass g).1 i) (solve_pass_sub g i)
    · simp only [solve_loop, hn, if_false]
      exact sub_refl _

/-- The grid returned by `solve` is pointwise included in the input grid. -/
theorem solve_sub (g : Grid) (i : Nat) :
    sub ((solve g).grid.getD i 0) (g.getD i 0) := by
  unfold solve
  by_cases hv : is_valid g
  · simp only [hv, if_true]
    exact solve_loop_sub _ g i
  · simp only [hv, if_false]
    exact sub_refl _

/-! ## C1: success of `solve` implies a valid, fully resolved grid -/

theorem solve_loop_post : ∀ fuel g, is_valid g = true →
    (solve_loop fuel g).ok = true →
    is_valid (solve_loop fuel g).grid = true ∧
    needs_solving (solve_loop fuel g).grid = false := by
  intro fuel
  induction fuel with
  | zero => intro g _ hok; simp [solve_loop] at hok
  | succ fuel ih =>
    intro g hv hok
    by_cases hn : needs_solving g
    · simp only [solve_loop, hn, if_true] at hok ⊢
      by_cases hv' : is_valid (solve_pass g).1 = false
      · simp only [hv', if_true] at hok; cases hok
      · simp only [hv', if_false] at hok ⊢
        by_cases hch : (solve_pass g).2 = false
        · simp only [hch, if_true] at hok; cases hok
        · simp only [hch, if_false] at hok ⊢
          exact ih (solve_pass g).1 (eq_true_of_ne_false hv') hok
    · simp only [solve_loop, hn, if_false] at hok ⊢
      exact ⟨hv, Bool.of_not_eq_true hn⟩

/-- Shared helper: a successful `solve` leaves a valid, fully resolved
grid. -/
theorem solve_ok_post (g : Grid) (h : (solve g).ok = true) :
    is_valid (solve g).grid = true ∧ needs_solving (solve g).grid = false := by
  unfold solve at *
  by_cases hv : is_valid g
  · simp only [hv, if_true] at h ⊢
    exact solve_loop_post _ g hv h
  · simp only [hv, if_false] at h
    cases h

/-- C1: whenever `solve` returns success, the resulting grid is valid and
fully resolved — every cell has exactly one candidate bit and no row,
column or box has a duplicate resolved digit or an empty cell. -/
theorem solve_success_valid (g : Grid) (h : (solve g).ok = true) :
    is_valid (solve g).grid = true ∧ needs_solving (solve g).grid = false :=
  solve_ok_post g h

/-- Encoding of digit `n` as its candidate bit. -/
def digitBitVal (n : Nat) : Nat := 1 <<< (n - 1)

/-- A concrete fully solved grid (the cyclic-shift solution). -/
def solvedGrid : Grid :=
  [1, 2, 3, 4, 5, 6, 7, 8, 9,  4, 5, 6, 7, 8, 9, 1, 2, 3,
   7, 8, 9, 1, 2, 3, 4, 5, 6,  2, 3, 4, 5, 6, 7, 8, 9, 1,
   5, 6, 7, 8, 9, 1, 2, 3, 4,  8, 9, 1, 2, 3, 4, 5, 6, 7,
   3, 4, 5, 6, 7, 8, 9, 1, 2,  6, 7, 8, 9, 1, 2, 3, 4, 5,
   9, 1, 2, 3, 4, 5, 6, 7, 8].map digitBitVal

theorem solve_success_valid_witness :
    (solve solvedGrid).ok = true ∧
    (is_valid (solve solvedGrid).grid = true ∧
     needs_solving (solve solvedGrid).grid = false) :=
  ⟨by decide, solve_success_valid solvedGrid (by decide)⟩

/-! ## Duplicate resolved digits make a region invalid (for C9 and others) -/

theorem bitset_is_unique_zero : bitset_is_unique 0 = false := by decide

theorem unique_ne_zero {v : Nat} (h : bitset_is_unique v = true) : (v == 0) = false := by
  cases hv : v == 0
  · rfl
  · exfalso
    have : v = 0 := by simpa using hv
    rw [this, bitset_is_unique_zero] at h
    cases h

/-- If a resolved value `v` occurs in the remaining cells and its bits are
already inside the accumulated mask, the region check fails. -/
theorem valid_cells_mem_false : ∀ (l : List Nat) (mask v : Nat),
    bitset_is_unique v = true → v ∈ l → v ||| mask = mask →
    valid_cells l mask = false := by
  intro l
  induction l with
  | nil => intro mask v _ hv _; cases hv
  | cons w rest ih =>
    intro mask v hu hv hm
    rcases List.mem_cons.mp hv with h | h
    · subst h
      unfold valid_cells
      rw [unique_ne_zero hu, if_neg (by simp)]
      rw [hu, if_pos rfl, if_pos (by simp [hm])]
    · unfold valid_cells
      by_cases h0 : (w == 0) = true
      · rw [if_pos h0]
      · rw [if_neg h0]
        by_cases hw : bitset_is_unique w = true
        · rw [hw, if_pos rfl]
          by_cases hdup : ((w ||| mask) == mask) = true
          · rw [if_pos hdup]
          · rw [if_neg hdup]
            apply ih _ v hu h
            rw [← Nat.lor_assoc, Nat.lor_comm v w, Nat.lor_assoc, hm]
        · rw [if_neg (by simp [hw])]
          exact ih _ v hu h hm

/-- If a resolved value occurs at least twice among the region's cells, the
region check fails, whatever the starting mask. -/
theorem valid_cells_dup_false : ∀ (l : List Nat) (mask v : Nat),
    bitset_is_unique v = true → 2 ≤ l.count v →
    valid_cells l mask = false := by
  intro l
  induction l with
  | nil => intro mask v _ hc; simp [List.count_nil] at hc
  | cons w rest ih =>
    intro mask v hu hc
    rw [List.count_cons] at hc
    unfold valid_cells
    by_cases h0 : (w == 0) = true
    · rw [if_pos h0]
    · rw [if_neg h0]
      by_cases hw : bitset_is_unique w = true
      · rw [hw, if_pos rfl]
        by_cases hdup : ((w ||| mask) == mask) = true
        · rw [if_pos hdup]
        · rw [if_neg hdup]
          by_cases hwv : (w == v) = true
          · have hwv' : w = v := by simpa using hwv
            subst hwv'
            have hmem : w ∈ rest := by
              rw [if_pos (by simp)] at hc
              have : 1 ≤ rest.count w := by omega
              exact List.count_pos_iff.mp this
            apply valid_cells_mem_false _ _ w hw hmem
            rw [← Nat.lor_assoc, Nat.or_self]
          · rw [if_neg hwv, Nat.add_zero] at hc
            exact ih _ v hu hc
      · rw [if_neg (by simp [hw])]
        by_cases hwv : (w == v) = true
        · have hwv' : w = v := by simpa using hwv
          subst hwv'
          rw [hu] at hw
          cases hw rfl
        · rw [if_neg hwv, Nat.add_zero] at hc
          exact ih _ v hu hc

/-- Two equal values at distinct positions give a count of at least two. -/
theorem count_ge_two : ∀ (l : List Nat) (i j v : Nat), i < j → j < l.length →
    l.getD i 0 = v → l.getD j 0 = v → 2 ≤ l.count v := by
  intro l
  induction l with
  | nil => intro i j v _ hj _ _; simp at hj
  | cons w rest ih =>
    intro i j v hij hj hi hjv
    match j, hij with
    | j' + 1, _ =>
      match i with
      | 0 =>
        have hw : w = v := hi
        have hmem : v ∈ rest := by
          have : rest.getD j' 0 = v := hjv
          have hj' : j' < rest.length := by simpa using hj
          rw [List.getD_eq_getElem _ _ hj'] at this
          rw [← this]
          exact List.getElem_mem hj'
        have : 1 ≤ rest.count v := List.count_pos_iff.mpr hmem
        rw [List.count_cons, if_pos (by simp [hw])]
        omega
      | i' + 1 =>
        have : 2 ≤ rest.count v := by
          apply ih i' j' v (by omega) (by simpa using hj) hi hjv
        rw [List.count_cons]
        omega

/-- C9 core: a row holding the resolved digit 5 (bit value 16) in two
distinct cells fails `is_valid_row`. -/
theorem is_valid_row_dup5 (g : Grid) (r c₁ c₂ : Nat)
    (h₁ : c₁ < 9) (h₂ : c₂ < 9) (hne : c₁ ≠ c₂)
    (e₁ : cellGet g r c₁ = 16) (e₂ : cellGet g r c₂ = 16) :
    is_valid_row g r = false := by
  have hlen : (rowCells g r).length = 9 := by simp [rowCells]
  have hget : ∀ c, c < 9 → (rowCells g r).getD c 0 = cellGet g r c := by
    intro c hc
    rw [List.getD_eq_getElem _ _ (by simp [rowCells, hc])]
    simp [rowCells]
  have hcount : 2 ≤ (rowCells g r).count 16 := by
    rcases Nat.lt_or_ge c₁ c₂ with h | h
    · exact count_ge_two _ c₁ c₂ 16 h (by omega)
        (by rw [hget c₁ h₁]; exact e₁) (by rw [hget c₂ h₂]; exact e₂)
    · have h' : c₂ < c₁ := by omega
      exact count_ge_two _ c₂ c₁ 16 h' (by omega)
        (by rw [hget c₂ h₂]; exact e₂) (by rw [hget c₁ h₁]; exact e₁)
  unfold is_valid_row
  exact valid_cells_dup_false _ 0 16 (by decide) hcount

/-- A failing row check makes the whole-grid check fail. -/
theorem is_valid_false_of_row (g : Grid) (r : Nat) (hr : r < 9)
    (h : is_valid_row g r = false) : is_valid g = false := by
  unfold is_valid
  rw [List.all_eq_false]
  refine ⟨r, List.mem_range.mpr hr, ?_⟩
  simp [h]

/-- C9: a grid whose row `r` holds the resolved digit 5 in two distinct
cells fails `is_valid_row`, and `solve` rejects it immediately: it returns
false, reports the error, and performs no elimination (the grid comes back
unchanged). -/
theorem dup5_row_rejected (g : Grid) (r c₁ c₂ : Nat)
    (hr : r < 9) (h₁ : c₁ < 9) (h₂ : c₂ < 9) (hne : c₁ ≠ c₂)
    (e₁ : cellGet g r c₁ = 16) (e₂ : cellGet g r c₂ = 16) :
    is_valid_row g r = false ∧ solve g = ⟨false, g, true⟩ := by
  have hrow := is_valid_row_dup5 g r c₁ c₂ h₁ h₂ hne e₁ e₂
  have hval := is_valid_false_of_row g r hr hrow
  refine ⟨hrow, ?_⟩
  unfold solve
  rw [if_neg (by simp [hval])]

/-- The all-open grid: every cell has all nine candidates. -/
def stuckGrid : Grid := List.replicate 81 NINE_ONES

/-- A grid with the resolved digit 5 twice in row 0, all else open. -/
def dupRowGrid : Grid := ((List.replicate 81 NINE_ONES).set 0 16).set 3 16

theorem dup5_row_rejected_witness :
    is_valid_row dupRowGrid 0 = false ∧
    solve dupRowGrid = ⟨false, dupRowGrid, true⟩ :=
  dup5_row_rejected dupRowGrid 0 0 3 (by decide) (by decide) (by decide)
    (by decide) (by decide) (by decide)

/-! ## C8: the two failure modes of `solve` -/

/-- Unfolding equation for one iteration of the elimination loop. -/
theorem solve_loop_succ (fuel : Nat) (g : Grid) :
    solve_loop (fuel + 1) g =
      if needs_solving g then
        let p := solve_pass g
        if is_valid p.1 = false then ⟨false, p.1, true⟩
        else if p.2 = false then ⟨false, p.1, false⟩
        else solve_loop fuel p.1
      else ⟨true, g, false⟩ := rfl

/-- Setting a cell to the value it already holds leaves the list unchanged. -/
theorem set_same {l : List Nat} {n v : Nat} (_hn : n < l.length)
    (hv : l.getD n 0 = v) : l.set n v = l := by
  apply List.ext_getElem
  · simp
  · intro i h1 h2
    rw [List.getElem_set]
    split
    · next h => subst h; rw [← hv, List.getD_eq_getElem _ _ h2]
    · rfl

theorem bitset_is_unique_511 : bitset_is_unique NINE_ONES = false := by decide

/-- If no cell of the rectangle is resolved, the mask stays all-ones. -/
theorem make_bitset_noUnique (g : Grid) (rs re cs ce : Nat)
    (h : ∀ i j, i ∈ List.range' rs (re - rs) → j ∈ List.range' cs (ce - cs) →
      bitset_is_unique (cellGet g i j) = false) :
    make_bitset g rs re cs ce = NINE_ONES := by
  unfold make_bitset
  apply foldl_inv (fun m => m = NINE_ONES) _ _ _ rfl
  intro m i hm hi
  apply foldl_inv (fun m => m = NINE_ONES) _ _ _ hm
  intro m' j hm' hj
  rw [h i j hi hj, if_neg (by simp)]
  exact hm'

/-- A grid of 81 all-open cells is untouched by `eliminate_row`. -/
theorem eliminate_row_open (g : Grid) (hlen : g.length = 81)
    (hall : ∀ i, i < 9 → ∀ j, j < 9 → cellGet g i j = NINE_ONES)
    (r : Nat) (hr : r < 9) :
    eliminate_row g r = (g, false) := by
  have hmask : make_bitset g r (r + 1) 0 9 = NINE_ONES := by
    apply make_bitset_noUnique
    intro i j hi hj
    have hi' : i = r := by
      simp [Nat.add_sub_cancel_left] at hi
      omega
    have hj' : j < 9 := by simpa using List.mem_range'_1.mp hj
    subst hi'
    rw [hall i hr j hj', bitset_is_unique_511]
  unfold eliminate_row
  rw [hmask]
  apply foldl_inv (fun p => p = (g, false)) _ _ _ rfl
  intro p j hp hj
  have hj' : j < 9 := List.mem_range.mp hj
  subst hp
  have hc : cellGet g r j = NINE_ONES := hall r hr j hj'
  rw [hc, bitset_is_unique_511]
  have hset : cellSet g r j (NINE_ONES &&& NINE_ONES) = g := by
    apply set_same
    · rw [hlen]
      unfold idx
      omega
    · show g.getD (idx r j) 0 = NINE_ONES &&& NINE_ONES
      exact hall r hr j hj'
  simp only [Bool.not_false, if_true, hset, hc]
  simp

/-- A grid of 81 all-open cells is untouched by `eliminate_col`. -/
theorem eliminate_col_open (g : Grid) (hlen : g.length = 81)
    (hall : ∀ i, i < 9 → ∀ j, j < 9 → cellGet g i j = NINE_ONES)
    (c : Nat) (hc : c < 9) :
    eliminate_col g c = (g, false) := by
  have hmask : make_bitset g 0 9 c (c + 1) = NINE_ONES := by
    apply make_bitset_noUnique
    intro i j hi hj
    have hj' : j = c := by
      simp [Nat.add_sub_cancel_left] at hj
      omega
    have hi' : i < 9 := by simpa using List.mem_range'_1.mp hi
    subst hj'
    rw [hall i hi' j hc, bitset_is_unique_511]
  unfold eliminate_col
  rw [hmask]
  apply foldl_inv (fun p => p = (g, false)) _ _ _ rfl
  intro p i hp hi
  have hi' : i < 9 := List.mem_range.mp hi
  subst hp
  have hcv : cellGet g i c = NINE_ONES := hall i hi' c hc
  rw [hcv, bitset_is_unique_511]
  have hset : cellSet g i c (NINE_ONES &&& NINE_ONES) = g := by
    apply set_same
    · rw [hlen]
      unfold idx
      omega
    · show g.getD (idx i c) 0 = NINE_ONES &&& NINE_ONES
      exact hall i hi' c hc
  simp only [Bool.not_false, if_true, hset, hcv]
  simp

/-- A grid of 81 all-open cells is untouched by `eliminate_box`. -/
theorem eliminate_box_open (g : Grid) (hlen : g.length = 81)
    (hall : ∀ i, i < 9 → ∀ j, j < 9 → cellGet g i j = NINE_ONES)
    (a b : Nat) (ha : a ≤ 6) (hb : b ≤ 6) :
    eliminate_box g a b = (g, false) := by
  have hmask : make_bitset g a (a + 3) b (b + 3) = NINE_ONES := by
    apply make_bitset_noUnique
    intro i j hi hj
    have hi' : i < 9 := by
      have := List.mem_range'_1.mp hi
      omega
    have hj' : j < 9 := by
      have := List.mem_range'_1.mp hj
      omega
    rw [hall i hi' j hj', bitset_is_unique_511]
  unfold eliminate_box
  rw [hmask]
  apply foldl_inv (fun p => p = (g, false)) _ _ _ rfl
  intro p i hp hi
  have hi' : i < 9 := by
    have := List.mem_range'_1.mp hi
    omega
  apply foldl_inv (fun p => p = (g, false)) _ _ _ hp
  intro p' j hp' hj
  have hj' : j < 9 := by
    have := List.mem_range'_1.mp hj
    omega
  subst hp'
  have hcv : cellGet g i j = NINE_ONES := hall i hi' j hj'
  rw [hcv, bitset_is_unique_511]
  have hset : cellSet g i j (NINE_ONES &&& NINE_ONES) = g := by
    apply set_same
    · rw [hlen]
      unfold idx
      omega
    · show g.getD (idx i j) 0 = NINE_ONES &&& NINE_ONES
      exact hall i hi' j hj'
  simp only [Bool.not_false, if_true, hset, hcv]
  simp

/-- A grid of 81 all-open cells is a fixed point of the elimination pass,
and the pass reports no change. -/
theorem solve_pass_open (g : Grid) (hlen : g.length = 81)
    (hall : ∀ i, i < 9 → ∀ j, j < 9 → cellGet g i j = NINE_ONES) :
    solve_pass g = (g, false) := by
  unfold solve_pass
  have h1 : (List.range 9).foldl (fun p row =>
      let q := eliminate_row p.1 row; (q.1, q.2 || p.2)) (g, false) = (g, false) := by
    apply foldl_inv (fun p => p = (g, false)) _ _ _ rfl
    intro p row hp hrow
    subst hp
    rw [eliminate_row_open g hlen hall row (List.mem_range.mp hrow)]
    rfl
  have h2 : (List.range 9).foldl (fun p col =>
      let q := eliminate_col p.1 col; (q.1, q.2 || p.2)) (g, false) = (g, false) := by
    apply foldl_inv (fun p => p = (g, false)) _ _ _ rfl
    intro p col hp hcol
    subst hp
    rw [eliminate_col_open g hlen hall col (List.mem_range.mp hcol)]
    rfl
  simp only [h1, h2]
  apply foldl_inv (fun p => p = (g, false)) _ _ _ rfl
  intro p row hp hrow
  apply foldl_inv (fun p => p = (g, false)) _ _ _ hp
  intro p' col hp' hcol
  subst hp'
  have hrow' : row ≤ 6 := by
    have h := hrow
    simp only [List.mem_cons, List.not_mem_nil, or_false] at h
    rcases h with h | h | h <;> omega
  have hcol' : col ≤ 6 := by
    have h := hcol
    simp only [List.mem_cons, List.not_mem_nil, or_false] at h
    rcases h with h | h | h <;> omega
  rw [eliminate_box_open g hlen hall row col hrow' hcol']
  rfl

/-- `solve` on a stuck grid: valid, unresolved, pass without change. -/
theorem solve_stuck_eq (g : Grid) (h1 : is_valid g = true)
    (h2 : needs_solving g = true) (h3 : solve_pass g = (g, false)) :
    solve g = ⟨false, g, false⟩ := by
  unfold solve
  rw [if_pos (by simp [h1])]
  rw [solve_loop_succ, if_pos h2]
  simp only [h3]
  rw [if_neg (by simp [h1])]
  rfl

/-- `solve` on an invalid grid rejects it unchanged, with the error flag. -/
theorem solve_invalid_eq (g : Grid) (h : is_valid g = false) :
    solve g = ⟨false, g, true⟩ := by
  unfold solve
  rw [if_neg (by simp [h])]

theorem stuckGrid_pass : solve_pass stuckGrid = (stuckGrid, false) :=
  solve_pass_open stuckGrid (by decide) (by decide)

/-- The claim that the stuck failure and the contradiction failure of
`solve` differ in the returned value is false: on a concrete invalid grid
and a concrete stuck grid, `solve` returns `false` both times.  The two
runs differ only in the `stderr` side effect (the `err` flag). -/
theorem solve_failure_same_return_counterexample :
    is_valid dupRowGrid = false ∧
    is_valid stuckGrid = true ∧ needs_solving stuckGrid = true ∧
    (solve dupRowGrid).ok = false ∧ (solve stuckGrid).ok = false ∧
    (solve dupRowGrid).ok = (solve stuckGrid).ok ∧
    (solve dupRowGrid).err = true ∧ (solve stuckGrid).err = false := by
  have hA : solve dupRowGrid = ⟨false, dupRowGrid, true⟩ :=
    solve_invalid_eq dupRowGrid (by decide)
  have hB : solve stuckGrid = ⟨false, stuckGrid, false⟩ :=
    solve_stuck_eq stuckGrid (by decide) (by decide) stuckGrid_pass
  rw [hA, hB]
  exact ⟨by decide, by decide, by decide, rfl, rfl, rfl, rfl, rfl⟩

/-- C8 (amended): both failure modes return `false` to the caller; they are
distinguished not by the return value but by the `stderr` side effect —
an invalid grid makes `solve` print the error message, while a stuck pass
on a valid grid fails silently. -/
theorem solve_failure_modes (gA gB : Grid) (hA : is_valid gA = false)
    (hB1 : is_valid gB = true) (hB2 : needs_solving gB = true)
    (hB3 : solve_pass gB = (gB, false)) :
    solve gA = ⟨false, gA, true⟩ ∧ solve gB = ⟨false, gB, false⟩ :=
  ⟨solve_invalid_eq gA hA, solve_stuck_eq gB hB1 hB2 hB3⟩

theorem solve_failure_modes_witness :
    solve dupRowGrid = ⟨false, dupRowGrid, true⟩ ∧
    solve stuckGrid = ⟨false, stuckGrid, false⟩ :=
  solve_failure_modes dupRowGrid stuckGrid (by decide) (by decide)
    (by decide) stuckGrid_pass

/-! ## C5: `make_bitset` versus the complement of the used digits -/

/-- The cell values of the rectangle scanned by `make_bitset`, in scan
order. -/
def rectCells (g : Grid) (rs re cs ce : Nat) : List Nat :=
  (List.range' rs (re - rs)).flatMap (fun i =>
    (List.range' cs (ce - cs)).map (fun j => cellGet g i j))

/-- One step of `make_bitset`'s fold, abstracted over the cell value. -/
def mask_step (mask v : Nat) : Nat :=
  if bitset_is_unique v then (mask ^^^ v) &&& NINE_ONES else mask

/-- The union of the resolved cells' digit bits in a cell list. -/
def region_used_bits (cells : List Nat) : Nat :=
  (cells.filter (fun v => bitset_is_unique v)).foldl
    (fun acc v => acc ||| (v &&& NINE_ONES)) 0

/-- The mask the spec describes, in the spec's words: the complement, within
the 9-bit universe, of the union of the resolved cells' single bits. -/
def make_bitset_spec (g : Grid) (rs re cs ce : Nat) : Nat :=
  NINE_ONES ^^^ region_used_bits (rectCells g rs re cs ce)

theorem foldl_flatMap {α β σ : Type} (l : List α) (h : α → List β)
    (f : σ → β → σ) (b : σ) :
    ((l.flatMap h).foldl f b) = l.foldl (fun b x => (h x).foldl f b) b := by
  induction l generalizing b with
  | nil => rfl
  | cons x xs ih => rw [List.flatMap_cons, List.foldl_append, List.foldl_cons, ih]

theorem make_bitset_eq_rect (g : Grid) (rs re cs ce : Nat) :
    make_bitset g rs re cs ce = (rectCells g rs re cs ce).foldl mask_step NINE_ONES := by
  unfold make_bitset rectCells
  rw [foldl_flatMap]
  simp only [List.foldl_map]
  rfl

theorem foldl_filter_bool {α σ : Type} (p : α → Bool) (f : σ → α → σ) :
    ∀ (l : List α) (b : σ),
    (l.filter p).foldl f b = l.foldl (fun b a => if p a then f b a else b) b := by
  intro l
  induction l with
  | nil => intro b; rfl
  | cons x xs ih =>
    intro b
    rw [List.filter_cons]
    by_cases h : p x
    · rw [if_pos h, List.foldl_cons, List.foldl_cons, if_pos h, ih]
    · rw [if_neg h, List.foldl_cons, if_neg h, ih]

/-- `bitset_is_unique` only looks at the low nine bits. -/
theorem bitset_is_unique_low (v : Nat) :
    bitset_is_unique (v &&& NINE_ONES) = bitset_is_unique v := by
  unfold bitset_is_unique
  have : (List.range 9).countP (fun k => (v &&& NINE_ONES) &&& (1 <<< k) != 0) =
      (List.range 9).countP (fun k => v &&& (1 <<< k) != 0) := by
    apply List.countP_congr
    intro k hk
    have hk9 : k < 9 := List.mem_range.mp hk
    have : (v &&& NINE_ONES) &&& (1 <<< k) = v &&& (1 <<< k) := by
      apply Nat.eq_of_testBit_eq
      intro t
      simp only [Nat.testBit_land, Nat.one_shiftLeft, Nat.testBit_two_pow]
      by_cases ht : k = t
      · subst ht
        have : Nat.testBit NINE_ONES k = true := by
          show Nat.testBit (2 ^ 9 - 1) k = true
          rw [Nat.testBit_two_pow_sub_one]
          simpa using hk9
        rw [this]
        simp
      · simp [ht]
    rw [this]
  rw [this]

set_option maxRecDepth 4000 in
/-- The low part of a resolved cell is a single digit bit. -/
theorem unique_low_exists (v : Nat) (h : bitset_is_unique v = true) :
    ∃ k, k < 9 ∧ v &&& NINE_ONES = 1 <<< k := by
  have hlow : bitset_is_unique (v &&& NINE_ONES) = true := by
    rw [bitset_is_unique_low]; exact h
  have hb : v &&& NINE_ONES < 512 := by
    have : v &&& NINE_ONES ≤ NINE_ONES := Nat.and_le_right
    unfold NINE_ONES at this ⊢
    omega
  have key : ∀ w, w < 512 → bitset_is_unique w = true → ∃ k, k < 9 ∧ w = 1 <<< k := by
    decide
  exact key _ hb hlow

theorem shift_disjoint {k₁ k₂ : Nat} (h : k₁ ≠ k₂) :
    (1 <<< k₁) &&& (1 <<< k₂) = 0 := by
  apply Nat.eq_of_testBit_eq
  intro t
  simp only [Nat.testBit_land, Nat.one_shiftLeft, Nat.testBit_two_pow, Nat.zero_testBit]
  by_cases h1 : k₁ = t
  · subst h1; simp [Ne.symm h]
  · simp [h1]

/-- Two resolved cells with different digit bits have disjoint low parts. -/
theorem unique_low_disjoint {a b : Nat}
    (ha : bitset_is_unique a = true) (hb : bitset_is_unique b = true)
    (hne : a &&& NINE_ONES ≠ b &&& NINE_ONES) :
    (a &&& NINE_ONES) &&& (b &&& NINE_ONES) = 0 := by
  obtain ⟨k₁, _, e₁⟩ := unique_low_exists a ha
  obtain ⟨k₂, _, e₂⟩ := unique_low_exists b hb
  rw [e₁, e₂]
  rw [e₁, e₂] at hne
  exact shift_disjoint (fun h => hne (by rw [h]))

theorem sub_lor {a b c : Nat} (ha : sub a c) (hb : sub b c) : sub (a ||| b) c := by
  rw [sub_iff_testBit] at *
  intro k hk
  rw [Nat.testBit_lor] at hk
  rcases Bool.or_eq_true_iff.mp hk with h | h
  · exact ha k h
  · exact hb k h

/-- The key step identity: XOR-ing a fresh resolved cell out of the current
complement mask adds its digit bit to the used set. -/
theorem mask_step_fresh {u v : Nat} (hu : sub u NINE_ONES)
    (hv : bitset_is_unique v = true) (hfresh : (v &&& NINE_ONES) &&& u = 0) :
    ((NINE_ONES ^^^ u) ^^^ v) &&& NINE_ONES =
      NINE_ONES ^^^ (u ||| (v &&& NINE_ONES)) := by
  apply Nat.eq_of_testBit_eq
  intro t
  have h9 : Nat.testBit NINE_ONES t = decide (t < 9) := by
    show Nat.testBit (2 ^ 9 - 1) t = decide (t < 9)
    rw [Nat.testBit_two_pow_sub_one]
  have hut : u.testBit t = true → t < 9 := by
    intro h
    have := (sub_iff_testBit.mp hu) t h
    rw [h9] at this
    simpa using this
  have hdisj : ¬(v.testBit t = true ∧ u.testBit t = true ∧ t < 9) := by
    rintro ⟨h1, h2, h3⟩
    have : ((v &&& NINE_ONES) &&& u).testBit t = true := by
      simp only [Nat.testBit_land, h1, h2, h9]
      simp [h3]
    rw [hfresh] at this
    simp at this
  simp only [Nat.testBit_xor, Nat.testBit_land, Nat.testBit_lor, h9]
  by_cases ht : t < 9
  · simp only [decide_eq_true ht]
    cases hv' : v.testBit t <;> cases hu' : u.testBit t <;> simp_all
  · simp only [decide_eq_false ht]
    have hu0 : u.testBit t = false := by
      cases h : u.testBit t
      · rfl
      · exact absurd (hut h) ht
    simp [hu0]

/-- Folding `make_bitset`'s step over cells whose resolved members are
pairwise digit-disjoint and disjoint from the bits already used computes
the complement of the accumulated used-bit union. -/
theorem fold_mask_compl : ∀ (L : List Nat) (u : Nat), sub u NINE_ONES →
    (∀ v ∈ L, bitset_is_unique v = true → (v &&& NINE_ONES) &&& u = 0) →
    List.Pairwise (fun a b => bitset_is_unique a = true →
      bitset_is_unique b = true →
      (a &&& NINE_ONES) &&& (b &&& NINE_ONES) = 0) L →
    L.foldl mask_step (NINE_ONES ^^^ u) =
      NINE_ONES ^^^ (L.foldl (fun acc v =>
        if bitset_is_unique v then acc ||| (v &&& NINE_ONES) else acc) u) := by
  intro L
  induction L with
  | nil => intro u _ _ _; rfl
  | cons v rest ih =>
    intro u hu hfresh hpw
    rw [List.foldl_cons, List.foldl_cons]
    by_cases hv : bitset_is_unique v = true
    · rw [show mask_step (NINE_ONES ^^^ u) v =
          NINE_ONES ^^^ (u ||| (v &&& NINE_ONES)) by
        unfold mask_step
        rw [if_pos hv]
        exact mask_step_fresh hu hv (hfresh v (List.mem_cons_self v rest) hv)]
      rw [if_pos hv]
      apply ih
      · exact sub_lor hu (sub_and_right v NINE_ONES)
      · intro w hw hwu
        rw [Nat.and_or_distrib_left, hfresh w (List.mem_cons_of_mem v hw) hwu]
        have : (w &&& NINE_ONES) &&& (v &&& NINE_ONES) = 0 := by
          rcases List.pairwise_cons.mp hpw with ⟨hhead, _⟩
          have h1 := hhead w hw hv hwu
          calc (w &&& NINE_ONES) &&& (v &&& NINE_ONES)
              = (v &&& NINE_ONES) &&& (w &&& NINE_ONES) := Nat.and_comm _ _
          _ = 0 := h1
        rw [this]
        rfl
      · exact (List.pairwise_cons.mp hpw).2
    · rw [show mask_step (NINE_ONES ^^^ u) v = NINE_ONES ^^^ u by
        unfold mask_step; rw [if_neg hv]]
      rw [if_neg hv]
      apply ih u hu
      · exact fun w hw hwu => hfresh w (List.mem_cons_of_mem v hw) hwu
      · exact (List.pairwise_cons.mp hpw).2

/-- Bool-valued variant of `List.pairwise_filter`. -/
theorem pairwise_filter_bool {R : Nat → Nat → Prop} (p : Nat → Bool) :
    ∀ (l : List Nat), List.Pairwise R (l.filter p) ↔
      List.Pairwise (fun a b => p a = true → p b = true → R a b) l := by
  intro l
  induction l with
  | nil => simp
  | cons x xs ih =>
    rw [List.filter_cons]
    by_cases h : p x
    · rw [if_pos h, List.pairwise_cons, List.pairwise_cons, ih]
      constructor
      · rintro ⟨h1, h2⟩
        exact ⟨fun b hb _ hpb => h1 b (List.mem_filter.mpr ⟨hb, hpb⟩), h2⟩
      · rintro ⟨h1, h2⟩
        exact ⟨fun b hb => h1 b (List.mem_filter.mp hb).1 h (List.mem_filter.mp hb).2, h2⟩
    · rw [if_neg h, List.pairwise_cons, ih]
      constructor
      · intro h1
        refine ⟨fun b _ hpx => absurd hpx (by simpa using h), h1⟩
      · rintro ⟨_, h2⟩
        exact h2

/-- Shared helper: when the resolved cells of the rectangle carry pairwise
distinct digits, `make_bitset` computes exactly the spec's mask. -/
theorem make_bitset_compl (g : Grid) (rs re cs ce : Nat)
    (hnd : (((rectCells g rs re cs ce).filter
      (fun v => bitset_is_unique v)).map (fun v => v &&& NINE_ONES)).Nodup) :
    make_bitset g rs re cs ce = make_bitset_spec g rs re cs ce := by
  rw [make_bitset_eq_rect]
  unfold make_bitset_spec region_used_bits
  rw [foldl_filter_bool]
  have hpw : List.Pairwise (fun a b => bitset_is_unique a = true →
      bitset_is_unique b = true →
      (a &&& NINE_ONES) &&& (b &&& NINE_ONES) = 0) (rectCells g rs re cs ce) := by
    have hnd' : List.Pairwise (fun a b => a ≠ b)
        (((rectCells g rs re cs ce).filter
          (fun v => bitset_is_unique v)).map (fun v => v &&& NINE_ONES)) := hnd
    rw [List.pairwise_map] at hnd'
    have h2 := (pairwise_filter_bool (fun v => bitset_is_unique v) _).mp hnd'
    apply List.Pairwise.imp ?_ h2
    intro a b h ha hb
    exact unique_low_disjoint ha hb (h ha hb)
  have h0 : sub 0 NINE_ONES := by unfold sub; rw [Nat.zero_and]
  have := fold_mask_compl (rectCells g rs re cs ce) 0 h0
    (fun v _ _ => Nat.and_zero _) hpw
  rw [Nat.xor_zero] at this
  exact this

/-- The claim that `make_bitset` returns the complement of the union of the
resolved digits is false when a digit is resolved twice in the region: with
two resolved 5s in row 0, the XOR cancels and the digit 5 reappears in the
mask. -/
theorem make_bitset_xor_counterexample :
    make_bitset dupRowGrid 0 1 0 9 = 511 ∧
    make_bitset_spec dupRowGrid 0 1 0 9 = 495 ∧
    make_bitset dupRowGrid 0 1 0 9 ≠ make_bitset_spec dupRowGrid 0 1 0 9 := by
  refine ⟨by decide, by decide, by decide⟩

/-- C5 (amended): for every grid and every region whose resolved cells hold
pairwise distinct digits, `make_bitset` returns exactly the complement,
within the 9-bit universe, of the union of the resolved cells' single
bits.  (With a duplicated resolved digit the XOR cancels instead.) -/
theorem make_bitset_matches_spec (g : Grid) (rs re cs ce : Nat)
    (hnd : (((rectCells g rs re cs ce).filter
      (fun v => bitset_is_unique v)).map (fun v => v &&& NINE_ONES)).Nodup) :
    make_bitset g rs re cs ce = make_bitset_spec g rs re cs ce :=
  make_bitset_compl g rs re cs ce hnd

theorem make_bitset_matches_spec_witness :
    make_bitset solvedGrid 0 1 0 9 = make_bitset_spec solvedGrid 0 1 0 9 :=
  make_bitset_matches_spec solvedGrid 0 1 0 9 (by decide)

/-! ## C6: the generator and local minimality -/

/-- C `is_solvable`, as the ordered list of removable cell indices: the
resolved cells whose blanking (to all-candidates) still leaves the grid
solvable by `solve` on a copy.  The C function returns the count and stores
the indices in `mask`; the list carries both. -/
def is_solvable (g : Grid) : List Nat :=
  (List.range 81).filter (fun i =>
    bitset_is_unique (g.getD i 0) && (solve (g.set i NINE_ONES)).ok)

/-- The `while (count > 0)` loop of C `generate`, fuel-indexed; `rnd t` is
the result of the `t`-th `rand()` call (`shake(limit)` is `rand() % limit`).
Fuel 82 suffices because each blanking strictly decreases the number of
resolved cells (at most 81). -/
def generate_loop : Nat → (Nat → Nat) → Nat → Grid → Grid
  | 0, _, _, g => g
  | fuel + 1, rnd, t, g =>
    let mask := is_solvable g
    if mask.length = 0 then g
    else generate_loop fuel rnd (t + 1)
      (g.set (mask.getD (rnd t % mask.length) 0) NINE_ONES)

/-- C `generate`. -/
def generate (rnd : Nat → Nat) (g : Grid) : Grid := generate_loop 82 rnd 0 g

theorem generate_loop_succ (fuel : Nat) (rnd : Nat → Nat) (t : Nat) (g : Grid) :
    generate_loop (fuel + 1) rnd t g =
      if (is_solvable g).length = 0 then g
      else generate_loop fuel rnd (t + 1)
        (g.set ((is_solvable g).getD (rnd t % (is_solvable g).length) 0)
          NINE_ONES) := rfl

/-- Number of resolved cells of the grid. -/
def resolvedCount (g : Grid) : Nat :=
  ((List.range 81).filter (fun i => bitset_is_unique (g.getD i 0))).length

theorem resolvedCount_le (g : Grid) : resolvedCount g ≤ 81 := by
  unfold resolvedCount
  calc ((List.range 81).filter _).length ≤ (List.range 81).length :=
        List.length_filter_le _ _
  _ = 81 := List.length_range 81

theorem mem_is_solvable {g : Grid} {i : Nat} (h : i ∈ is_solvable g) :
    i < 81 ∧ bitset_is_unique (g.getD i 0) = true ∧
      (solve (g.set i NINE_ONES)).ok = true := by
  unfold is_solvable at h
  have h1 := List.mem_filter.mp h
  refine ⟨List.mem_range.mp h1.1, ?_, ?_⟩
  · exact (Bool.and_eq_true_iff.mp h1.2).1
  · exact (Bool.and_eq_true_iff.mp h1.2).2

theorem getD_mod_mem {l : List Nat} (h : l.length ≠ 0) (k : Nat) :
    l.getD (k % l.length) 0 ∈ l := by
  have hlt : k % l.length < l.length := Nat.mod_lt _ (Nat.pos_of_ne_zero h)
  rw [List.getD_eq_getElem _ _ hlt]
  exact List.getElem_mem hlt

theorem countP_pointwise_lt {p q : Nat → Bool} {i : Nat} :
    ∀ (l : List Nat), l.Nodup → i ∈ l → p i = true → q i = false →
    (∀ j ∈ l, j ≠ i → p j = q j) → l.countP q < l.countP p := by
  intro l
  induction l with
  | nil => intro _ hi; cases hi
  | cons x xs ih =>
    intro hnd hi hp hq hpt
    rw [List.countP_cons, List.countP_cons]
    rcases List.mem_cons.mp hi with he | hmem
    · have hpx : p x = true := he ▸ hp
      have hqx : q x = false := he ▸ hq
      have heq : xs.countP q = xs.countP p := by
        apply List.countP_congr
        intro j hj
        have hji : j ≠ i := by
          rintro rfl
          exact (List.nodup_cons.mp hnd).1 (he ▸ hj)
        rw [hpt j (List.mem_cons_of_mem x hj) hji]
      rw [hpx, hqx, heq]
      simp
    · have hxi : x ≠ i := by
        rintro rfl
        exact (List.nodup_cons.mp hnd).1 hmem
      have hx : p x = q x := hpt x (List.mem_cons_self x xs) hxi
      have := ih (List.nodup_cons.mp hnd).2 hmem hp hq
        (fun j hj hji => hpt j (List.mem_cons_of_mem x hj) hji)
      rw [hx]
      exact Nat.add_lt_add_right this _

theorem resolvedCount_set_lt {g : Grid} {i : Nat} (hi : i < 81)
    (hres : bitset_is_unique (g.getD i 0) = true) :
    resolvedCount (g.set i NINE_ONES) < resolvedCount g := by
  unfold resolvedCount
  rw [← List.countP_eq_length_filter, ← List.countP_eq_length_filter]
  apply countP_pointwise_lt (List.range 81) (List.nodup_range 81)
    (List.mem_range.mpr hi) hres
  · have hlen : i < g.length := by
      by_contra h
      rw [List.getD_eq_default _ _ (by omega)] at hres
      rw [bitset_is_unique_zero] at hres
      cases hres
    rw [getD_set_self hlen, bitset_is_unique_511]
  · intro j _ hji
    rw [getD_set_ne (fun h => hji h.symm)]

/-- With enough fuel, the generator loop always exits through the
`count = 0` test: afterwards no resolved cell is removable. -/
theorem generate_loop_post : ∀ (fuel : Nat) (rnd : Nat → Nat) (t : Nat)
    (g : Grid), resolvedCount g < fuel →
    is_solvable (generate_loop fuel rnd t g) = [] := by
  intro fuel
  induction fuel with
  | zero => intro rnd t g h; exact absurd h (Nat.not_lt_zero _)
  | succ fuel ih =>
    intro rnd t g h
    rw [generate_loop_succ]
    by_cases h0 : (is_solvable g).length = 0
    · rw [if_pos h0]
      exact List.length_eq_zero.mp h0
    · rw [if_neg h0]
      apply ih
      have hmem : (is_solvable g).getD (rnd t % (is_solvable g).length) 0 ∈
          is_solvable g := getD_mod_mem h0 _
      obtain ⟨hi, hres, _⟩ := mem_is_solvable hmem
      have := resolvedCount_set_lt hi hres
      omega

/-- C6: after `generate`, the grid is locally minimal — blanking any single
still-resolved cell to the all-candidates value makes `solve` fail on the
copy. -/
theorem generate_local_minimal (g : Grid) (rnd : Nat → Nat) (i : Nat)
    (hi : i < 81)
    (hres : bitset_is_unique ((generate rnd g).getD i 0) = true) :
    (solve ((generate rnd g).set i NINE_ONES)).ok = false := by
  have hempty : is_solvable (generate rnd g) = [] := by
    apply generate_loop_post 82 rnd 0 g
    have := resolvedCount_le g
    omega
  have hall := List.filter_eq_nil_iff.mp hempty i (List.mem_range.mpr hi)
  cases hok : (solve ((generate rnd g).set i NINE_ONES)).ok
  · rfl
  · exfalso
    apply hall
    rw [hres, hok]
    rfl

/-- A grid with one resolved cell and eighty open cells. -/
def genWitnessGrid : Grid := 1 :: List.replicate 80 NINE_ONES

theorem genWitnessGrid_open_cells {a : Nat} (ha : a < 81) (h0 : a ≠ 0) :
    genWitnessGrid.getD a 0 = NINE_ONES := by
  match a, h0 with
  | a' + 1, _ =>
    show (List.replicate 80 NINE_ONES).getD a' 0 = NINE_ONES
    have ha' : a' < 80 := by omega
    rw [List.getD_eq_getElem _ _ (by simpa using ha')]
    exact List.getElem_replicate _ _

theorem genWitnessGrid_not_solvable : is_solvable genWitnessGrid = [] := by
  unfold is_solvable
  rw [List.filter_eq_nil_iff]
  intro a ha
  by_cases h0 : a = 0
  · subst h0
    have hset : genWitnessGrid.set 0 NINE_ONES = stuckGrid := by decide
    rw [hset, solve_stuck_eq stuckGrid (by decide) (by decide) stuckGrid_pass]
    simp
  · rw [genWitnessGrid_open_cells (List.mem_range.mp ha) h0, bitset_is_unique_511]
    simp

theorem genWitnessGrid_fixed (rnd : Nat → Nat) :
    generate rnd genWitnessGrid = genWitnessGrid := by
  show generate_loop (81 + 1) rnd 0 genWitnessGrid = genWitnessGrid
  rw [generate_loop_succ, genWitnessGrid_not_solvable]
  simp

theorem generate_local_minimal_witness :
    0 < 81 ∧
    bitset_is_unique ((generate (fun _ => 0) genWitnessGrid).getD 0 0) = true ∧
    (solve ((generate (fun _ => 0) genWitnessGrid).set 0 NINE_ONES)).ok = false :=
  ⟨by decide,
   by rw [genWitnessGrid_fixed]; decide,
   generate_local_minimal genWitnessGrid (fun _ => 0) 0 (by decide)
     (by rw [genWitnessGrid_fixed]; decide)⟩

/-! ## The backtracking solver `generic_solve` -/

/-- The row-major scan of C `generic_solve`: the first cell that is not
resolved, if any. -/
def first_open (g : Grid) : Option (Nat × Nat) :=
  ((List.range 81).find? (fun k => !(bitset_is_unique (g.getD k 0)))).map
    (fun k => (k / 9, k % 9))

/-- The digit loop of C `generic_solve` (`num = 1 .. 9`): try each candidate
of the snapshot cell, recursing through `gs`; after a failed trial restore
the snapshot into the working grid. -/
def try_nums (gs : Grid → Bool × Grid) (orig : Grid) (r c : Nat) :
    List Nat → Grid → Bool × Grid
  | [], g => (false, g)
  | num :: rest, g =>
    if contain (cellGet orig r c) num then
      let g0 := cellSet g r c 0
      let g1 := cellSet g0 r c (bitset_add (cellGet g0 r c) num)
      match gs g1 with
      | (true, g2) => (true, g2)
      | (false, _) => try_nums gs orig r c rest orig
    else try_nums gs orig r c rest g

/-- C `generic_solve`, fuel-indexed.  Every recursive call strictly
decreases `gridSum`, so fuel `gridSum g + 1` never runs out. -/
def generic_solve_fuel : Nat → Grid → Bool × Grid
  | 0, g => (false, g)
  | fuel + 1, g =>
    if !(is_valid g) then (false, g)
    else
      match first_open g with
      | none => (true, g)
      | some rc =>
        let s := solve g
        if s.ok then (true, s.grid)
        else if bitset_is_unique (cellGet s.grid rc.1 rc.2) then
          generic_solve_fuel fuel s.grid
        else
          try_nums (generic_solve_fuel fuel) g rc.1 rc.2
            [1, 2, 3, 4, 5, 6, 7, 8, 9] s.grid

/-- C `generic_solve`. -/
def generic_solve (g : Grid) : Bool × Grid :=
  generic_solve_fuel (gridSum g + 1) g

theorem generic_solve_fuel_succ (fuel : Nat) (g : Grid) :
    generic_solve_fuel (fuel + 1) g =
      if !(is_valid g) then (false, g)
      else
        match first_open g with
        | none => (true, g)
        | some rc =>
          let s := solve g
          if s.ok then (true, s.grid)
          else if bitset_is_unique (cellGet s.grid rc.1 rc.2) then
            generic_solve_fuel fuel s.grid
          else
            try_nums (generic_solve_fuel fuel) g rc.1 rc.2
              [1, 2, 3, 4, 5, 6, 7, 8, 9] s.grid := rfl

/-! ## Well-formed grids and completions -/

/-- A value that encodes a single digit `1..9`, as the spec's "resolved"
cell: exactly one of the nine low bits, no junk above. -/
def isDigitBit (v : Nat) : Prop := ∃ k, k < 9 ∧ v = 1 <<< k

instance (v : Nat) : Decidable (isDigitBit v) := by
  unfold isDigitBit; infer_instance

/-- A well-formed grid in the sense of the spec's data model: 81 cells,
each a 9-bit candidate set. -/
def WellFormed (g : Grid) : Prop :=
  g.length = 81 ∧ ∀ i, i < 81 → sub (g.getD i 0) NINE_ONES

instance (g : Grid) : Decidable (WellFormed g) := by
  unfold WellFormed; infer_instance

/-- `s` is a completion of `g`: a fully resolved, valid Sudoku grid that is
consistent with `g`'s candidate sets. -/
def IsCompletion (s g : Grid) : Prop :=
  s.length = g.length ∧ is_valid s = true ∧
  ∀ i, i < 81 → isDigitBit (s.getD i 0) ∧ sub (s.getD i 0) (g.getD i 0)

instance (s g : Grid) : Decidable (IsCompletion s g) := by
  unfold IsCompletion; infer_instance

theorem digitBit_unique {v : Nat} (h : isDigitBit v) :
    bitset_is_unique v = true := by
  obtain ⟨k, hk, rfl⟩ := h
  have key : ∀ k, k < 9 → bitset_is_unique (1 <<< k) = true := by decide
  exact key k hk

theorem digitBit_sub_NINE {v : Nat} (h : isDigitBit v) : sub v NINE_ONES := by
  obtain ⟨k, hk, rfl⟩ := h
  have key : ∀ k, k < 9 → sub (1 <<< k) NINE_ONES := by decide
  exact key k hk

/-- A cell value below the 9-bit bound that is resolved is a digit bit. -/
theorem unique_wf_digitBit {v : Nat} (hwf : sub v NINE_ONES)
    (hu : bitset_is_unique v = true) : isDigitBit v := by
  obtain ⟨k, hk, he⟩ := unique_low_exists v hu
  refine ⟨k, hk, ?_⟩
  have hv : v &&& NINE_ONES = v := hwf
  rw [← hv, he]

/-! ## Length preservation -/

theorem cellSet_length (g : Grid) (r c v : Nat) :
    (cellSet g r c v).length = g.length := List.length_set g _ v

theorem eliminate_row_len (g : Grid) (r : Nat) :
    (eliminate_row g r).1.length = g.length := by
  exact foldl_inv (fun p : Grid × Bool => p.1.length = g.length)
    (fun p j =>
      if !(bitset_is_unique (cellGet p.1 r j)) then
        (cellSet p.1 r j (cellGet p.1 r j &&& make_bitset g r (r + 1) 0 9),
         (cellGet p.1 r j !=
           cellGet (cellSet p.1 r j
             (cellGet p.1 r j &&& make_bitset g r (r + 1) 0 9)) r j) || p.2)
      else p)
    (List.range 9) (g, false) rfl
    (by
      intro p j hp _
      by_cases hU : bitset_is_unique (cellGet p.1 r j)
      · simp only [hU, Bool.not_true, Bool.false_eq_true, if_false]; exact hp
      · simp only [hU, Bool.not_false, if_true]
        rw [cellSet_length]; exact hp)

theorem eliminate_col_len (g : Grid) (c : Nat) :
    (eliminate_col g c).1.length = g.length := by
  exact foldl_inv (fun p : Grid × Bool => p.1.length = g.length)
    (fun p r =>
      if !(bitset_is_unique (cellGet p.1 r c)) then
        (cellSet p.1 r c (cellGet p.1 r c &&& make_bitset g 0 9 c (c + 1)),
         (cellGet p.1 r c !=
           cellGet (cellSet p.1 r c
             (cellGet p.1 r c &&& make_bitset g 0 9 c (c + 1))) r c) || p.2)
      else p)
    (List.range 9) (g, false) rfl
    (by
      intro p r hp _
      by_cases hU : bitset_is_unique (cellGet p.1 r c)
      · simp only [hU, Bool.not_true, Bool.false_eq_true, if_false]; exact hp
      · simp only [hU, Bool.not_false, if_true]
        rw [cellSet_length]; exact hp)

theorem eliminate_box_len (g : Grid) (a b : Nat) :
    (eliminate_box g a b).1.length = g.length := by
  exact foldl_inv (fun p : Grid × Bool => p.1.length = g.length)
    (fun p r =>
      (List.range' b 3).foldl (fun p j =>
        if !(bitset_is_unique (cellGet p.1 r j)) then
          (cellSet p.1 r j (cellGet p.1 r j &&& make_bitset g a (a + 3) b (b + 3)),
           (cellGet p.1 r j !=
             cellGet (cellSet p.1 r j
               (cellGet p.1 r j &&& make_bitset g a (a + 3) b (b + 3))) r j) || p.2)
        else p) p)
    (List.range' a 3) (g, false) rfl
    (by
      intro p r hp _
      apply foldl_inv (fun p : Grid × Bool => p.1.length = g.length) _ _ _ hp
      intro p' j hp' _
      by_cases hU : bitset_is_unique (cellGet p'.1 r j)
      · simp only [hU, Bool.not_true, Bool.false_eq_true, if_false]; exact hp'
      · simp only [hU, Bool.not_false, if_true]
        rw [cellSet_length]; exact hp')

theorem solve_pass_len (g : Grid) : (solve_pass g).1.length = g.length := by
  have key : ∀ (f : Grid → Nat → Grid × Bool),
      (∀ gc a, (f gc a).1.length = gc.length) →
      ∀ (l : List Nat) (p₀ : Grid × Bool), p₀.1.length = g.length →
      ((l.foldl (fun p x => let q := f p.1 x; (q.1, q.2 || p.2)) p₀)).1.length
        = g.length := by
    intro f hf l p₀ hp
    apply foldl_inv (fun p : Grid × Bool => p.1.length = g.length) _ _ _ hp
    intro p a hp' _
    show (f p.1 a).1.length = g.length
    rw [hf p.1 a]; exact hp'
  have h1 := key eliminate_row eliminate_row_len (List.range 9) (g, false) rfl
  have h2 := key eliminate_col eliminate_col_len (List.range 9) _ h1
  have h3 := foldl_inv (fun p : Grid × Bool => p.1.length = g.length)
    (fun p row => ([0, 3, 6] : List Nat).foldl (fun p col =>
      let q := eliminate_box p.1 row col; (q.1, q.2 || p.2)) p)
    ([0, 3, 6] : List Nat) _ h2 ?step
  · exact h3
  case step =>
    intro p row hp _
    exact key (fun gc col => eliminate_box gc row col)
      (fun gc a => eliminate_box_len gc row a) ([0, 3, 6] : List Nat) p hp

theorem solve_loop_len : ∀ fuel g, (solve_loop fuel g).grid.length = g.length := by
  intro fuel
  induction fuel with
  | zero => intro g; rfl
  | succ fuel ih =>
    intro g
    by_cases hn : needs_solving g
    · by_cases hv : is_valid (solve_pass g).1 = false
      · simp [solve_loop, hn, hv, solve_pass_len]
      · by_cases hch : (solve_pass g).2 = false
        · simp [solve_loop, hn, hv, hch, solve_pass_len]
        · simp only [solve_loop, hn, if_true]
          rw [if_neg hv, if_neg hch, ih (solve_pass g).1]
          exact solve_pass_len g
    · simp [solve_loop, hn]

theorem solve_len (g : Grid) : (solve g).grid.length = g.length := by
  by_cases hv : is_valid g
  · simp [solve, hv, solve_loop_len]
  · simp [solve, hv]

/-! ## `WellFormed` and monotonicity facts for `generic_solve` -/

theorem contain_sub {v num : Nat} (h : contain v num = true) :
    sub (1 <<< (num - 1)) v := by
  unfold contain at h
  rw [sub_iff_testBit]
  intro k hk
  rw [Nat.one_shiftLeft, Nat.testBit_two_pow] at hk
  have hknum : num - 1 = k := by simpa using hk
  subst hknum
  by_contra hv
  have hv' : v.testBit (num - 1) = false := Bool.of_not_eq_true hv
  have : v &&& 1 <<< (num - 1) = 0 := by
    apply Nat.eq_of_testBit_eq
    intro t
    simp only [Nat.testBit_land, Nat.one_shiftLeft, Nat.testBit_two_pow,
      Nat.zero_testBit]
    by_cases ht : num - 1 = t
    · subst ht; rw [hv']; simp
    · simp [ht]
  rw [this] at h
  simp at h

theorem first_open_none {g : Grid} (h : first_open g = none) :
    ∀ k, k < 81 → bitset_is_unique (g.getD k 0) = true := by
  intro k hk
  unfold first_open at h
  cases hf : (List.range 81).find? (fun k => !(bitset_is_unique (g.getD k 0))) with
  | some v => rw [hf] at h; exact Option.noConfusion h
  | none =>
    have := List.find?_eq_none.mp hf k (List.mem_range.mpr hk)
    simpa using this

theorem first_open_some {g : Grid} {r c : Nat}
    (h : first_open g = some (r, c)) :
    r < 9 ∧ c < 9 ∧ bitset_is_unique (g.getD (idx r c) 0) = false := by
  unfold first_open at h
  cases hf : (List.range 81).find? (fun k => !(bitset_is_unique (g.getD k 0))) with
  | none => rw [hf] at h; exact Option.noConfusion h
  | some k =>
    rw [hf] at h
    have hmem := List.mem_range.mp (List.mem_of_find?_eq_some hf)
    have hpred := List.find?_some hf
    have h' : (k / 9, k % 9) = (r, c) := Option.some.inj h
    have hr : k / 9 = r := congrArg Prod.fst h'
    have hc : k % 9 = c := congrArg Prod.snd h'
    subst hr; subst hc
    refine ⟨by omega, Nat.mod_lt _ (by omega), ?_⟩
    have hidx : idx (k / 9) (k % 9) = k := by
      unfold idx
      omega
    rw [hidx]
    simpa using hpred

theorem needs_solving_false {g : Grid} (h : needs_solving g = false) :
    ∀ i, i < 81 → bitset_is_unique (g.getD i 0) = true := by
  intro i hi
  unfold needs_solving at h
  rw [List.any_eq_false] at h
  have h1 := h (i / 9) (List.mem_range.mpr (by omega))
  have h1' : ((List.range 9).any fun j =>
      !bitset_is_unique (cellGet g (i / 9) j)) = false := Bool.of_not_eq_true h1
  rw [List.any_eq_false] at h1'
  have h2' := h1' (i % 9) (List.mem_range.mpr (Nat.mod_lt _ (by omega)))
  have h2 : (!bitset_is_unique (cellGet g (i / 9) (i % 9))) = false :=
    Bool.of_not_eq_true h2'
  have hidx : idx (i / 9) (i % 9) = i := by unfold idx; omega
  unfold cellGet at h2
  rw [hidx] at h2
  simpa using h2

theorem WellFormed_of_sub {g h : Grid} (hw : WellFormed g)
    (hlen : h.length = g.length)
    (hsub : ∀ i, i < 81 → sub (h.getD i 0) (g.getD i 0)) : WellFormed h :=
  ⟨by rw [hlen, hw.1], fun i hi => sub_trans (hsub i hi) (hw.2 i hi)⟩

theorem IsCompletion_mono {t h g : Grid} (hc : IsCompletion t h)
    (hlen : h.length = g.length)
    (hsub : ∀ i, i < 81 → sub (h.getD i 0) (g.getD i 0)) : IsCompletion t g :=
  ⟨hc.1.trans hlen, hc.2.1,
   fun i hi => ⟨(hc.2.2 i hi).1, sub_trans ((hc.2.2 i hi).2) (hsub i hi)⟩⟩

/-- The trial grid of the digit loop: `g` with cell `(r, c)` zeroed and then
set to the digit bit of `num`, exactly as the two C statements do. -/
def trial (g : Grid) (r c num : Nat) : Grid :=
  cellSet (cellSet g r c 0) r c (bitset_add (cellGet (cellSet g r c 0) r c) num)

theorem try_nums_nil (gs : Grid → Bool × Grid) (orig : Grid) (r c : Nat)
    (g : Grid) : try_nums gs orig r c [] g = (false, g) := rfl

theorem try_nums_cons (gs : Grid → Bool × Grid) (orig : Grid) (r c num : Nat)
    (rest : List Nat) (g : Grid) :
    try_nums gs orig r c (num :: rest) g =
      if contain (cellGet orig r c) num then
        match gs (trial g r c num) with
        | (true, g2) => (true, g2)
        | (false, _) => try_nums gs orig r c rest orig
      else try_nums gs orig r c rest g := rfl

theorem trial_len (g : Grid) (r c num : Nat) :
    (trial g r c num).length = g.length := by
  unfold trial
  rw [cellSet_length, cellSet_length]

theorem trial_getD_ne (g : Grid) (r c num : Nat) {i : Nat} (hi : i ≠ idx r c) :
    (trial g r c num).getD i 0 = g.getD i 0 := by
  unfold trial cellSet
  rw [getD_set_ne (fun h => hi h.symm), getD_set_ne (fun h => hi h.symm)]

theorem trial_getD_eq (g : Grid) (r c num : Nat) (hlt : idx r c < g.length) :
    (trial g r c num).getD (idx r c) 0 = 1 <<< (num - 1) := by
  unfold trial cellSet
  have hg0 : cellGet (g.set (idx r c) 0) r c = 0 := by
    show (g.set (idx r c) 0).getD (idx r c) 0 = 0
    rw [getD_set_self hlt]
  rw [getD_set_self (by rw [List.length_set]; exact hlt)]
  show bitset_add (cellGet (g.set (idx r c) 0) r c) num = 1 <<< (num - 1)
  rw [hg0]
  show 0 ||| 1 <<< (num - 1) = 1 <<< (num - 1)
  exact Nat.zero_or _

theorem trial_out (g : Grid) (r c num : Nat) (hge : g.length ≤ idx r c) :
    trial g r c num = g := by
  unfold trial cellSet
  rw [getD_set_out hge, getD_set_out hge]

theorem trial_sub {g orig : Grid} {r c num : Nat}
    (hg : ∀ i, sub (g.getD i 0) (orig.getD i 0))
    (hcn : contain (cellGet orig r c) num = true) :
    ∀ i, sub ((trial g r c num).getD i 0) (orig.getD i 0) := by
  intro i
  by_cases hi : i = idx r c
  · subst hi
    by_cases hlt : idx r c < g.length
    · rw [trial_getD_eq g r c num hlt]
      exact contain_sub hcn
    · rw [trial_out g r c num (Nat.le_of_not_lt hlt)]
      exact hg _
  · rw [trial_getD_ne g r c num hi]
    exact hg i

/-! ## Monotonicity and soundness of `generic_solve` -/

theorem try_nums_sub (gs : Grid → Bool × Grid)
    (hgs : ∀ h i, sub ((gs h).2.getD i 0) (h.getD i 0)) (orig : Grid)
    (r c : Nat) :
    ∀ (nums : List Nat) (g : Grid),
    (∀ i, sub (g.getD i 0) (orig.getD i 0)) →
    ∀ i, sub ((try_nums gs orig r c nums g).2.getD i 0) (orig.getD i 0) := by
  intro nums
  induction nums with
  | nil => intro g hg i; rw [try_nums_nil]; exact hg i
  | cons num rest ih =>
    intro g hg i
    rw [try_nums_cons]
    by_cases hcn : contain (cellGet orig r c) num = true
    · rw [if_pos hcn]
      cases hres : gs (trial g r c num) with
      | mk b g2 =>
        cases b
        · show sub ((try_nums gs orig r c rest orig).2.getD i 0) (orig.getD i 0)
          exact ih orig (fun k => sub_refl _) i
        · show sub (g2.getD i 0) (orig.getD i 0)
          have h1 := hgs (trial g r c num) i
          rw [hres] at h1
          exact sub_trans h1 (trial_sub hg hcn i)
    · rw [if_neg hcn]
      exact ih g hg i

theorem generic_solve_fuel_sub : ∀ fuel g i,
    sub ((generic_solve_fuel fuel g).2.getD i 0) (g.getD i 0) := by
  intro fuel
  induction fuel with
  | zero => intro g i; exact sub_refl _
  | succ fuel ih =>
    intro g i
    rw [generic_solve_fuel_succ]
    cases hv : is_valid g
    · exact sub_refl _
    · show sub ((match first_open g with
        | none => (true, g)
        | some rc =>
          let s := solve g
          if s.ok then (true, s.grid)
          else if bitset_is_unique (cellGet s.grid rc.1 rc.2) then
            generic_solve_fuel fuel s.grid
          else
            try_nums (generic_solve_fuel fuel) g rc.1 rc.2
              [1, 2, 3, 4, 5, 6, 7, 8, 9] s.grid).2.getD i 0) (g.getD i 0)
      cases hfo : first_open g with
      | none => exact sub_refl _
      | some rc =>
        show sub ((if (solve g).ok then (true, (solve g).grid)
          else if bitset_is_unique (cellGet (solve g).grid rc.1 rc.2) then
            generic_solve_fuel fuel (solve g).grid
          else
            try_nums (generic_solve_fuel fuel) g rc.1 rc.2
              [1, 2, 3, 4, 5, 6, 7, 8, 9] (solve g).grid).2.getD i 0)
          (g.getD i 0)
        cases hok : (solve g).ok
        · show sub ((if bitset_is_unique (cellGet (solve g).grid rc.1 rc.2) then
              generic_solve_fuel fuel (solve g).grid
            else
              try_nums (generic_solve_fuel fuel) g rc.1 rc.2
                [1, 2, 3, 4, 5, 6, 7, 8, 9] (solve g).grid).2.getD i 0)
            (g.getD i 0)
          cases hun : bitset_is_unique (cellGet (solve g).grid rc.1 rc.2)
          · show sub ((try_nums (generic_solve_fuel fuel) g rc.1 rc.2
                [1, 2, 3, 4, 5, 6, 7, 8, 9] (solve g).grid).2.getD i 0)
              (g.getD i 0)
            exact try_nums_sub (generic_solve_fuel fuel)
              (fun h k => ih h k) g rc.1 rc.2 _ (solve g).grid
              (fun k => solve_sub g k) i
          · show sub ((generic_solve_fuel fuel (solve g).grid).2.getD i 0)
              (g.getD i 0)
            exact sub_trans (ih (solve g).grid i) (solve_sub g i)
        · exact solve_sub g i

/-- `solve` preserves well-formedness. -/
theorem solve_WellFormed {g : Grid} (hwf : WellFormed g) :
    WellFormed (solve g).grid :=
  WellFormed_of_sub hwf (solve_len g) (fun i _ => solve_sub g i)

/-- Soundness of the digit loop: a `true` result is a completion of the
snapshot grid. -/
theorem try_nums_sound (gs : Grid → Bool × Grid)
    (hgs : ∀ h g', WellFormed h → gs h = (true, g') → IsCompletion g' h)
    (orig : Grid) (r c : Nat) (hwf : WellFormed orig) :
    ∀ (nums : List Nat) (g : Grid),
    (∀ i, sub (g.getD i 0) (orig.getD i 0)) → g.length = orig.length →
    ∀ g', try_nums gs orig r c nums g = (true, g') → IsCompletion g' orig := by
  intro nums
  induction nums with
  | nil =>
    intro g _ _ g' h
    rw [try_nums_nil] at h
    cases h
  | cons num rest ih =>
    intro g hg hglen g' h
    rw [try_nums_cons] at h
    by_cases hcn : contain (cellGet orig r c) num = true
    · rw [if_pos hcn] at h
      cases hres : gs (trial g r c num) with
      | mk b g2 =>
        rw [hres] at h
        cases b
        · exact ih orig (fun k => sub_refl _) rfl g' h
        · have hg'' : g2 = g' := by
            have h2 : (true, g2) = (true, g') := h
            exact (Prod.mk.injEq _ _ _ _ ▸ h2).2
          have htw : WellFormed (trial g r c num) :=
            WellFormed_of_sub hwf ((trial_len g r c num).trans hglen)
              (fun i _ => trial_sub hg hcn i)
          have hcomp := hgs (trial g r c num) g2 htw hres
          rw [← hg'']
          exact IsCompletion_mono hcomp ((trial_len g r c num).trans hglen)
            (fun i _ => trial_sub hg hcn i)
    · rw [if_neg hcn] at h
      exact ih g hg hglen g' h

/-- Soundness of the backtracking solver: whenever it reports success on a
well-formed grid, the final grid is a completion of the input. -/
theorem generic_solve_fuel_sound : ∀ fuel g g', WellFormed g →
    generic_solve_fuel fuel g = (true, g') → IsCompletion g' g := by
  intro fuel
  induction fuel with
  | zero =>
    intro g g' _ h
    cases h
  | succ fuel ih =>
    intro g g' hwf h
    rw [generic_solve_fuel_succ] at h
    cases hv : is_valid g
    · rw [hv] at h
      cases h
    · rw [hv] at h
      simp only [Bool.not_true, Bool.false_eq_true, if_false] at h
      cases hfo : first_open g with
      | none =>
        rw [hfo] at h
        have hg' : g = g' := by
          have : (true, g) = (true, g') := h
          exact (Prod.mk.injEq _ _ _ _ ▸ this).2
        rw [← hg']
        refine ⟨rfl, hv, fun i hi => ?_⟩
        have hu := first_open_none hfo i hi
        exact ⟨unique_wf_digitBit (hwf.2 i hi) hu, sub_refl _⟩
      | some rc =>
        rw [hfo] at h
        simp only at h
        cases hok : (solve g).ok
        · rw [hok] at h
          simp only [Bool.false_eq_true, if_false] at h
          cases hun : bitset_is_unique (cellGet (solve g).grid rc.1 rc.2)
          · rw [hun] at h
            simp only [Bool.false_eq_true, if_false] at h
            exact try_nums_sound (generic_solve_fuel fuel)
              (fun hh g'' hhw hhe => ih hh g'' hhw hhe) g rc.1 rc.2 hwf
              _ (solve g).grid (fun i => solve_sub g i) (solve_len g) g' h
          · rw [hun] at h
            simp only [if_true] at h
            have := ih (solve g).grid g' (solve_WellFormed hwf) h
            exact IsCompletion_mono this (solve_len g) (fun i _ => solve_sub g i)
        · rw [hok] at h
          simp only [if_true] at h
          have hg' : (solve g).grid = g' := by
            have : (true, (solve g).grid) = (true, g') := h
            exact (Prod.mk.injEq _ _ _ _ ▸ this).2
          rw [← hg']
          obtain ⟨hval, hns⟩ := solve_ok_post g hok
          refine ⟨solve_len g, hval, fun i hi => ?_⟩
          refine ⟨unique_wf_digitBit ((solve_WellFormed hwf).2 i hi)
            (needs_solving_false hns i hi), solve_sub g i⟩

/-- Soundness at the top level. -/
theorem generic_solve_sound {g g' : Grid} (hwf : WellFormed g)
    (h : generic_solve g = (true, g')) : IsCompletion g' g :=
  generic_solve_fuel_sound _ g g' hwf h

/-! ## C3: failure without restoration -/

/-- C3 (amended): on a well-formed grid with no completion, `generic_solve`
returns false; the caller's grid is not always restored, but it is only ever
shrunk — every cell of the final grid is a subset of the entry cell. -/
theorem generic_solve_no_solution (g : Grid) (hwf : WellFormed g)
    (h : ∀ s, ¬ IsCompletion s g) :
    (generic_solve g).1 = false ∧
    ∀ i, sub ((generic_solve g).2.getD i 0) (g.getD i 0) := by
  constructor
  · cases hres : (generic_solve g).1
    · rfl
    · exfalso
      have heta : generic_solve g = ((generic_solve g).1, (generic_solve g).2) := rfl
      rw [hres] at heta
      exact h (generic_solve g).2 (generic_solve_sound hwf heta)
  · exact fun i => generic_solve_fuel_sub _ g i

/-- Extracting a row check from `is_valid`. -/
theorem is_valid_row_of_valid {g : Grid} (h : is_valid g = true) {r : Nat}
    (hr : r < 9) : is_valid_row g r = true := by
  unfold is_valid at h
  rw [List.all_eq_true] at h
  have := h r (List.mem_range.mpr hr)
  exact (Bool.and_eq_true_iff.mp (Bool.and_eq_true_iff.mp this).1).1

/-- Two equal cells at distinct columns put the value twice in the row. -/
theorem row_count_two (g : Grid) (r c₁ c₂ v : Nat)
    (h₁ : c₁ < 9) (h₂ : c₂ < 9) (hne : c₁ ≠ c₂)
    (e₁ : cellGet g r c₁ = v) (e₂ : cellGet g r c₂ = v) :
    2 ≤ (rowCells g r).count v := by
  have hget : ∀ c, c < 9 → (rowCells g r).getD c 0 = cellGet g r c := by
    intro c hc
    rw [List.getD_eq_getElem _ _ (by simp [rowCells, hc])]
    simp [rowCells]
  rcases Nat.lt_or_ge c₁ c₂ with h | h
  · exact count_ge_two _ c₁ c₂ v h (by simp [rowCells]; omega)
      (by rw [hget c₁ h₁]; exact e₁) (by rw [hget c₂ h₂]; exact e₂)
  · have h' : c₂ < c₁ := by omega
    exact count_ge_two _ c₂ c₁ v h' (by simp [rowCells]; omega)
      (by rw [hget c₂ h₂]; exact e₂) (by rw [hget c₁ h₁]; exact e₁)

/-- In a valid row, a resolved value cannot occur in two distinct cells. -/
theorem row_resolved_distinct (g : Grid) (r c₁ c₂ : Nat)
    (hval : is_valid_row g r = true)
    (h₁ : c₁ < 9) (h₂ : c₂ < 9) (hne : c₁ ≠ c₂)
    (hu : bitset_is_unique (cellGet g r c₁) = true) :
    cellGet g r c₁ ≠ cellGet g r c₂ := by
  intro heq
  have hcount := row_count_two g r c₁ c₂ (cellGet g r c₁) h₁ h₂ hne rfl heq.symm
  have hfalse := valid_cells_dup_false (rowCells g r) 0 _ hu hcount
  unfold is_valid_row at hval
  rw [hval] at hfalse
  cases hfalse

theorem digit_sub3 {v : Nat} (h : isDigitBit v) (hsub : sub v 3) :
    v = 1 ∨ v = 2 := by
  obtain ⟨k, hk, rfl⟩ := h
  have key : ∀ k, k < 9 → sub (1 <<< k) 3 → (1 <<< k = 1 ∨ 1 <<< k = 2) := by
    decide
  exact key k hk hsub

def gs0 : Grid := [3, 3, 3, 511, 511, 1, 511, 511, 511, 511, 511, 511, 511, 511, 511, 511, 511, 511, 511, 511, 511, 511, 511, 511, 511, 511, 511, 511, 511, 511, 511, 511, 511, 511, 511, 511, 511, 511, 511, 511, 511, 511, 511, 511, 511, 511, 511, 511, 511, 511, 511, 511, 511, 511, 511, 511, 511, 511, 511, 511, 511, 511, 511, 511, 511, 511, 511, 511, 511, 511, 511, 511, 511, 511, 511, 511, 511, 511, 511, 511, 511]

def gs1 : Grid := [2, 2, 2, 510, 510, 1, 510, 510, 510, 511, 511, 511, 511, 511, 511, 511, 511, 511, 511, 511, 511, 511, 511, 511, 511, 511, 511, 511, 511, 511, 511, 511, 511, 511, 511, 511, 511, 511, 511, 511, 511, 511, 511, 511, 511, 511, 511, 511, 511, 511, 511, 511, 511, 511, 511, 511, 511, 511, 511, 511, 511, 511, 511, 511, 511, 511, 511, 511, 511, 511, 511, 511, 511, 511, 511, 511, 511, 511, 511, 511, 511]

def gs2 : Grid := [2, 2, 2, 510, 510, 1, 510, 510, 510, 509, 511, 511, 511, 511, 511, 511, 511, 511, 509, 511, 511, 511, 511, 511, 511, 511, 511, 509, 511, 511, 511, 511, 511, 511, 511, 511, 509, 511, 511, 511, 511, 511, 511, 511, 511, 509, 511, 511, 511, 511, 511, 511, 511, 511, 509, 511, 511, 511, 511, 511, 511, 511, 511, 509, 511, 511, 511, 511, 511, 511, 511, 511, 509, 511, 511, 511, 511, 511, 511, 511, 511]

def gs3 : Grid := [2, 2, 2, 510, 510, 1, 510, 510, 510, 509, 509, 511, 511, 511, 511, 511, 511, 511, 509, 509, 511, 511, 511, 511, 511, 511, 511, 509, 509, 511, 511, 511, 511, 511, 511, 511, 509, 509, 511, 511, 511, 511, 511, 511, 511, 509, 509, 511, 511, 511, 511, 511, 511, 511, 509, 509, 511, 511, 511, 511, 511, 511, 511, 509, 509, 511, 511, 511, 511, 511, 511, 511, 509, 509, 511, 511, 511, 511, 511, 511, 511]

def gs4 : Grid := [2, 2, 2, 510, 510, 1, 510, 510, 510, 509, 509, 509, 511, 511, 511, 511, 511, 511, 509, 509, 509, 511, 511, 511, 511, 511, 511, 509, 509, 509, 511, 511, 511, 511, 511, 511, 509, 509, 509, 511, 511, 511, 511, 511, 511, 509, 509, 509, 511, 511, 511, 511, 511, 511, 509, 509, 509, 511, 511, 511, 511, 511, 511, 509, 509, 509, 511, 511, 511, 511, 511, 511, 509, 509, 509, 511, 511, 511, 511, 511, 511]

def gs5 : Grid := [2, 2, 2, 510, 510, 1, 510, 510, 510, 509, 509, 509, 511, 511, 510, 511, 511, 511, 509, 509, 509, 511, 511, 510, 511, 511, 511, 509, 509, 509, 511, 511, 510, 511, 511, 511, 509, 509, 509, 511, 511, 510, 511, 511, 511, 509, 509, 509, 511, 511, 510, 511, 511, 511, 509, 509, 509, 511, 511, 510, 511, 511, 511, 509, 509, 509, 511, 511, 510, 511, 511, 511, 509, 509, 509, 511, 511, 510, 511, 511, 511]

def gs6 : Grid := [2, 2, 2, 510, 510, 1, 510, 510, 510, 509, 509, 509, 510, 510, 510, 511, 511, 511, 509, 509, 509, 510, 510, 510, 511, 511, 511, 509, 509, 509, 511, 511, 510, 511, 511, 511, 509, 509, 509, 511, 511, 510, 511, 511, 511, 509, 509, 509, 511, 511, 510, 511, 511, 511, 509, 509, 509, 511, 511, 510, 511, 511, 511, 509, 509, 509, 511, 511, 510, 511, 511, 511, 509, 509, 509, 511, 511, 510, 511, 511, 511]

/-- The rectangle grid `gs0` (three cells restricted to digits 1-2 in row 0,
a resolved 1 further right, all else open) has no completion: a completion
would need three pairwise distinct digits from the two-element set. -/
theorem gs0_no_completion : ∀ s, ¬ IsCompletion s gs0 := by
  intro s hs
  obtain ⟨hlen, hval, hcells⟩ := hs
  have h0 := hcells 0 (by omega)
  have h1 := hcells 1 (by omega)
  have h2 := hcells 2 (by omega)
  have d0 := digit_sub3 h0.1 h0.2
  have d1 := digit_sub3 h1.1 h1.2
  have d2 := digit_sub3 h2.1 h2.2
  have hrow := is_valid_row_of_valid hval (by omega : (0 : Nat) < 9)
  have ne01 : s.getD 0 0 ≠ s.getD 1 0 :=
    row_resolved_distinct s 0 0 1 hrow (by omega) (by omega) (by omega)
      (digitBit_unique h0.1)
  have ne02 : s.getD 0 0 ≠ s.getD 2 0 :=
    row_resolved_distinct s 0 0 2 hrow (by omega) (by omega) (by omega)
      (digitBit_unique h0.1)
  have ne12 : s.getD 1 0 ≠ s.getD 2 0 :=
    row_resolved_distinct s 0 1 2 hrow (by omega) (by omega) (by omega)
      (digitBit_unique h1.1)
  rcases d0 with e0 | e0 <;> rcases d1 with e1 | e1 <;>
    rcases d2 with e2 | e2 <;> omega

set_option maxRecDepth 2000 in
/-- The one elimination pass that `solve` performs on `gs0`, eliminated
region by region. -/
theorem pass_gc3 : solve_pass gs0 = (gs6, true) := by
  have er0 : eliminate_row gs0 0 = (gs1, true) := by decide
  have er1 : eliminate_row gs1 1 = (gs1, false) := by decide
  have er2 : eliminate_row gs1 2 = (gs1, false) := by decide
  have er3 : eliminate_row gs1 3 = (gs1, false) := by decide
  have er4 : eliminate_row gs1 4 = (gs1, false) := by decide
  have er5 : eliminate_row gs1 5 = (gs1, false) := by decide
  have er6 : eliminate_row gs1 6 = (gs1, false) := by decide
  have er7 : eliminate_row gs1 7 = (gs1, false) := by decide
  have er8 : eliminate_row gs1 8 = (gs1, false) := by decide
  have ec0 : eliminate_col gs1 0 = (gs2, true) := by decide
  have ec1 : eliminate_col gs2 1 = (gs3, true) := by decide
  have ec2 : eliminate_col gs3 2 = (gs4, true) := by decide
  have ec3 : eliminate_col gs4 3 = (gs4, false) := by decide
  have ec4 : eliminate_col gs4 4 = (gs4, false) := by decide
  have ec5 : eliminate_col gs4 5 = (gs5, true) := by decide
  have ec6 : eliminate_col gs5 6 = (gs5, false) := by decide
  have ec7 : eliminate_col gs5 7 = (gs5, false) := by decide
  have ec8 : eliminate_col gs5 8 = (gs5, false) := by decide
  have eb00 : eliminate_box gs5 0 0 = (gs5, false) := by decide
  have eb03 : eliminate_box gs5 0 3 = (gs6, true) := by decide
  have eb06 : eliminate_box gs6 0 6 = (gs6, false) := by decide
  have eb30 : eliminate_box gs6 3 0 = (gs6, false) := by decide
  have eb33 : eliminate_box gs6 3 3 = (gs6, false) := by decide
  have eb36 : eliminate_box gs6 3 6 = (gs6, false) := by decide
  have eb60 : eliminate_box gs6 6 0 = (gs6, false) := by decide
  have eb63 : eliminate_box gs6 6 3 = (gs6, false) := by decide
  have eb66 : eliminate_box gs6 6 6 = (gs6, false) := by decide
  have hr9 : List.range 9 = [0, 1, 2, 3, 4, 5, 6, 7, 8] := rfl
  unfold solve_pass
  rw [hr9]
  simp only [List.foldl_cons, List.foldl_nil, er0, er1, er2, er3, er4, er5,
    er6, er7, er8, ec0, ec1, ec2, ec3, ec4, ec5, ec6, ec7, ec8,
    eb00, eb03, eb06, eb30, eb33, eb36, eb60, eb63, eb66,
    Bool.or_false, Bool.or_true, Bool.false_or, Bool.true_or]

set_option maxRecDepth 2000 in
theorem solve_gc3 : solve gs0 = ⟨false, gs6, true⟩ := by
  unfold solve
  rw [if_pos (show is_valid gs0 = true by decide)]
  rw [solve_loop_succ, if_pos (show needs_solving gs0 = true by decide)]
  simp only [pass_gc3]
  rw [if_pos (show is_valid (gs6, true).1 = false by decide)]

set_option maxRecDepth 2000 in
theorem generic_solve_gc3 : generic_solve gs0 = (false, gs6) := by
  unfold generic_solve
  rw [generic_solve_fuel_succ]
  have hv : is_valid gs0 = true := by decide
  rw [hv]
  simp only [Bool.not_true, Bool.false_eq_true, if_false]
  have hfo : first_open gs0 = some (0, 0) := by decide
  rw [hfo]
  show (if (solve gs0).ok then (true, (solve gs0).grid)
    else if bitset_is_unique (cellGet (solve gs0).grid 0 0) then
      generic_solve_fuel (gridSum gs0) (solve gs0).grid
    else try_nums (generic_solve_fuel (gridSum gs0)) gs0 0 0
      [1, 2, 3, 4, 5, 6, 7, 8, 9] (solve gs0).grid) = (false, gs6)
  rw [solve_gc3]
  simp only [show (⟨false, gs6, true⟩ : SolveResult).ok = false from rfl,
    show (⟨false, gs6, true⟩ : SolveResult).grid = gs6 from rfl,
    Bool.false_eq_true, if_false]
  rw [if_pos (show bitset_is_unique (cellGet gs6 0 0) = true by decide)]
  rw [show gridSum gs0 = 39356 + 1 by decide]
  rw [generic_solve_fuel_succ]
  rw [show is_valid gs6 = false by decide]
  simp

/-- C3's restoration claim is false: `gs0` is a well-formed grid with no
completion, `generic_solve` returns false on it, and the caller's grid is
left mutated (the failed `solve` inside the search resolved the scanned
cell, and that path returns without restoring the snapshot). -/
theorem generic_solve_restore_counterexample :
    WellFormed gs0 ∧ (∀ s, ¬ IsCompletion s gs0) ∧
    generic_solve gs0 = (false, gs6) ∧ gs6 ≠ gs0 :=
  ⟨by decide, gs0_no_completion, generic_solve_gc3, by decide⟩

theorem generic_solve_no_solution_witness :
    (generic_solve gs0).1 = false ∧
    ∀ i, sub ((generic_solve gs0).2.getD i 0) (gs0.getD i 0) :=
  generic_solve_no_solution gs0 (by decide) gs0_no_completion

/-! ## Bit-level lemmas for completion preservation -/

theorem sub_one_shift_iff {d m : Nat} :
    sub (1 <<< d) m ↔ m.testBit d = true := by
  constructor
  · intro h
    apply (sub_iff_testBit.mp h) d
    rw [Nat.one_shiftLeft, Nat.testBit_two_pow]
    simp
  · intro h
    rw [sub_iff_testBit]
    intro k hk
    rw [Nat.one_shiftLeft, Nat.testBit_two_pow] at hk
    have : d = k := by simpa using hk
    subst this
    exact h

theorem and_shift_ne_eq_testBit (v k : Nat) :
    ((v &&& (1 <<< k)) != 0) = v.testBit k := by
  rw [Nat.one_shiftLeft, Nat.and_two_pow]
  cases h : v.testBit k
  · simp
  · simp [(Nat.two_pow_pos k).ne']

theorem countP_two_of_distinct {p : Nat → Bool} {a b : Nat} (hab : a ≠ b) :
    ∀ (l : List Nat), l.Nodup → a ∈ l → b ∈ l → p a = true → p b = true →
    2 ≤ l.countP p := by
  intro l
  induction l with
  | nil => intro _ ha; cases ha
  | cons x xs ih =>
    intro hnd ha hb hpa hpb
    rw [List.countP_cons]
    rcases List.mem_cons.mp ha with hea | hma
    · have hbx : b ∈ xs := by
        rcases List.mem_cons.mp hb with heb | hmb
        · exact absurd (hea.trans heb.symm) hab
        · exact hmb
      have h1 : 0 < xs.countP p := List.countP_pos_iff.mpr ⟨b, hbx, hpb⟩
      have hx : p x = true := hea ▸ hpa
      have h2 : (if p x = true then 1 else 0) = 1 := by simp [hx]
      rw [h2]
      omega
    · rcases List.mem_cons.mp hb with heb | hmb
      · have h1 : 0 < xs.countP p := List.countP_pos_iff.mpr ⟨a, hma, hpa⟩
        have hx : p x = true := heb ▸ hpb
        have h2 : (if p x = true then 1 else 0) = 1 := by simp [hx]
        rw [h2]
        omega
      · have := ih (List.nodup_cons.mp hnd).2 hma hmb hpa hpb
        omega

/-- A resolved cell has exactly one low bit: two set low bits coincide. -/
theorem unique_testBit_eq {v a b : Nat} (hu : bitset_is_unique v = true)
    (ha9 : a < 9) (hb9 : b < 9) (hta : v.testBit a = true)
    (htb : v.testBit b = true) : a = b := by
  by_contra hab
  have h2 : 2 ≤ (List.range 9).countP (fun k => v &&& (1 <<< k) != 0) := by
    apply countP_two_of_distinct hab (List.range 9) (List.nodup_range 9)
      (List.mem_range.mpr ha9) (List.mem_range.mpr hb9)
    · rw [and_shift_ne_eq_testBit]; exact hta
    · rw [and_shift_ne_eq_testBit]; exact htb
  unfold bitset_is_unique at hu
  have h1 : (List.range 9).countP (fun k => v &&& (1 <<< k) != 0) = 1 := by
    simpa using hu
  omega

theorem sub_and_intro {a b c : Nat} (hb : sub a b) (hc : sub a c) :
    sub a (b &&& c) := by
  rw [sub_iff_testBit] at *
  intro k hk
  rw [Nat.testBit_land]
  rw [hb k hk, hc k hk]
  rfl

theorem sub_nonzero {a b : Nat} (h : sub a b) (ha : a ≠ 0) : b ≠ 0 := by
  intro hb
  subst hb
  have : a &&& 0 = a := h
  rw [Nat.and_zero] at this
  exact ha this.symm

theorem digitBit_ne_zero {v : Nat} (h : isDigitBit v) : v ≠ 0 := by
  obtain ⟨k, _, rfl⟩ := h
  rw [Nat.one_shiftLeft]
  exact (Nat.two_pow_pos k).ne'

theorem digit_sub_digit_eq {a b : Nat} (ha : isDigitBit a) (hb : isDigitBit b)
    (h : sub a b) : a = b := by
  obtain ⟨k, hk, rfl⟩ := ha
  obtain ⟨m, hm, rfl⟩ := hb
  have := sub_one_shift_iff.mp h
  rw [Nat.one_shiftLeft, Nat.testBit_two_pow] at this
  have : m = k := by simpa using this
  rw [this]

/-- The digit bit of a resolved cell of a completion pins down the cell's
single low bit. -/
theorem completion_cell_bit {sv gv : Nat} (hd : isDigitBit sv) (hsub : sub sv gv)
    (hu : bitset_is_unique gv = true) {t : Nat} (ht9 : t < 9)
    (htb : gv.testBit t = true) : sv.testBit t = true := by
  obtain ⟨d, hd9, he⟩ := hd
  have hgd : gv.testBit d = true := by
    apply (sub_iff_testBit.mp hsub) d
    rw [he, Nat.one_shiftLeft, Nat.testBit_two_pow]
    simp
  have : t = d := unique_testBit_eq hu ht9 hd9 htb hgd
  subst this
  rw [he, Nat.one_shiftLeft, Nat.testBit_two_pow]
  simp

/-! ## Strict decrease of `gridSum` -/

theorem gridSum_le_of_sub {a b : Grid}
    (h : ∀ i, i < 81 → sub (a.getD i 0) (b.getD i 0)) :
    gridSum a ≤ gridSum b := by
  unfold gridSum
  apply Finset.sum_le_sum
  intro i hi
  exact sub_le (h i (Finset.mem_range.mp hi))

theorem gridSum_lt_of_sub {a b : Grid} {t : Nat} (ht : t < 81)
    (h : ∀ i, i < 81 → sub (a.getD i 0) (b.getD i 0))
    (hne : a.getD t 0 ≠ b.getD t 0) :
    gridSum a < gridSum b := by
  unfold gridSum
  apply Finset.sum_lt_sum
  · intro i hi
    exact sub_le (h i (Finset.mem_range.mp hi))
  · exact ⟨t, Finset.mem_range.mpr ht,
      sub_lt (h t ht) hne⟩

/-! ## Region machinery: distinctness and validity transfer -/

/-- In any region list that passes `valid_cells`, a resolved value cannot
appear at two distinct positions. -/
theorem region_resolved_distinct {L : List Nat} (hval : valid_cells L 0 = true)
    {p q : Nat} (hp : p < L.length) (hq : q < L.length) (hne : p ≠ q)
    (hu : bitset_is_unique (L.getD p 0) = true) : L.getD p 0 ≠ L.getD q 0 := by
  intro heq
  have hcount : 2 ≤ L.count (L.getD p 0) := by
    rcases Nat.lt_or_ge p q with h | h
    · exact count_ge_two _ p q _ h hq rfl heq.symm
    · have h' : q < p := by omega
      exact count_ge_two _ q p _ h' hp heq.symm rfl
  have := valid_cells_dup_false L 0 _ hu hcount
  rw [hval] at this
  cases this

theorem rowCells_getD (g : Grid) (r c : Nat) (hc : c < 9) :
    (rowCells g r).getD c 0 = cellGet g r c := by
  rw [List.getD_eq_getElem _ _ (by simp [rowCells, hc])]
  simp [rowCells]

theorem rowCells_length (g : Grid) (r : Nat) : (rowCells g r).length = 9 := by
  simp [rowCells]

theorem colCells_getD (g : Grid) (c r : Nat) (hr : r < 9) :
    (colCells g c).getD r 0 = cellGet g r c := by
  rw [List.getD_eq_getElem _ _ (by simp [colCells, hr])]
  simp [colCells]

theorem colCells_length (g : Grid) (c : Nat) : (colCells g c).length = 9 := by
  simp [colCells]

/-- The box cell list written out. -/
theorem boxCells_eq (g : Grid) (a b : Nat) :
    boxCells g a b =
      [cellGet g a b, cellGet g a (b + 1), cellGet g a (b + 2),
       cellGet g (a + 1) b, cellGet g (a + 1) (b + 1), cellGet g (a + 1) (b + 2),
       cellGet g (a + 2) b, cellGet g (a + 2) (b + 1), cellGet g (a + 2) (b + 2)] := by
  unfold boxCells
  rfl

theorem boxCells_getD (g : Grid) (a b di dj : Nat) (hdi : di < 3) (hdj : dj < 3) :
    (boxCells g a b).getD (3 * di + dj) 0 = cellGet g (a + di) (b + dj) := by
  rw [boxCells_eq]
  interval_cases di <;> interval_cases dj <;> rfl

theorem boxCells_length (g : Grid) (a b : Nat) : (boxCells g a b).length = 9 := by
  rw [boxCells_eq]
  rfl

/-- Extracting a column check from `is_valid`. -/
theorem is_valid_col_of_valid {g : Grid} (h : is_valid g = true) {c : Nat}
    (hc : c < 9) : is_valid_col g c = true := by
  unfold is_valid at h
  rw [List.all_eq_true] at h
  have := h c (List.mem_range.mpr hc)
  exact (Bool.and_eq_true_iff.mp (Bool.and_eq_true_iff.mp this).1).2

/-- Extracting a box check from `is_valid`, for corners that are multiples
of three. -/
theorem is_valid_box_of_valid {g : Grid} (h : is_valid g = true) {a b : Nat}
    (ha : a = 0 ∨ a = 3 ∨ a = 6) (hb : b = 0 ∨ b = 3 ∨ b = 6) :
    is_valid_box g a b = true := by
  unfold is_valid at h
  rw [List.all_eq_true] at h
  have key : ∀ i, i < 9 → is_valid_box g ((i / 3) * 3) ((i % 3) * 3) = true := by
    intro i hi
    exact (Bool.and_eq_true_iff.mp (h i (List.mem_range.mpr hi))).2
  have hi : a + b / 3 < 9 := by omega
  have := key (a + b / 3) hi
  have e1 : (a + b / 3) / 3 * 3 = a := by omega
  have e2 : (a + b / 3) % 3 * 3 = b := by omega
  rw [e1, e2] at this
  exact this

theorem sub_of_lor_eq {a b : Nat} (h : a ||| b = b) : sub a b := by
  rw [sub_iff_testBit]
  intro k hk
  have h2 := congrArg (fun x => Nat.testBit x k) h
  simp only [Nat.testBit_lor, hk, Bool.true_or] at h2
  exact h2.symm

theorem lor_eq_of_sub {a b : Nat} (h : sub a b) : a ||| b = b := by
  apply Nat.eq_of_testBit_eq
  intro k
  rw [Nat.testBit_lor]
  cases hk : a.testBit k
  · simp
  · simp [sub_iff_testBit.mp h k hk]

theorem sub_lor_mono {m s : Nat} (h : sub m s) (v : Nat) :
    sub (v ||| m) (v ||| s) := by
  rw [sub_iff_testBit]
  intro k hk
  rw [Nat.testBit_lor] at hk ⊢
  rcases Bool.or_eq_true_iff.mp hk with h1 | h1
  · rw [h1]; rfl
  · rw [sub_iff_testBit.mp h k h1]
    simp

theorem sub_lor_right (a b : Nat) : sub b (a ||| b) := by
  rw [sub_iff_testBit]
  intro k hk
  rw [Nat.testBit_lor, hk]
  simp

/-- Transfer of `valid_cells` from the resolved completion back to the
partial grid: a 9-bit grid region whose cells contain a valid resolved
region cannot itself fail the check. -/
theorem valid_cells_lift : ∀ {Lg Ls : List Nat},
    List.Forall₂ (fun vg vs => sub vg NINE_ONES ∧ isDigitBit vs ∧ sub vs vg)
      Lg Ls →
    ∀ {mg ms : Nat}, sub mg ms → valid_cells Ls ms = true →
    valid_cells Lg mg = true := by
  intro Lg
  induction Lg with
  | nil =>
    intro Ls hf mg ms _ _
    cases hf
    rfl
  | cons vg Lg' ih =>
    intro Ls hf mg ms hm hs
    cases hf with
    | cons hhead htail =>
      rename_i vs Ls'
      obtain ⟨hwf, hd, hsub⟩ := hhead
      unfold valid_cells at hs ⊢
      have hvs0 : (vs == 0) = false := by
        cases h : vs == 0
        · rfl
        · exact absurd (by simpa using h) (digitBit_ne_zero hd)
      rw [hvs0, if_neg (by simp)] at hs
      rw [digitBit_unique hd, if_pos rfl] at hs
      have hvsm : ((vs ||| ms) == ms) = false := by
        cases h : (vs ||| ms) == ms
        · rfl
        · rw [if_pos (by simpa using h)] at hs
          cases hs
      rw [hvsm, if_neg (by simp)] at hs
      have hvg0 : (vg == 0) = false := by
        cases h : vg == 0
        · rfl
        · exfalso
          have hvg : vg = 0 := by simpa using h
          subst hvg
          have h0 : vs &&& 0 = vs := hsub
          rw [Nat.and_zero] at h0
          exact digitBit_ne_zero hd h0.symm
      rw [hvg0, if_neg (by simp)]
      by_cases hvgu : bitset_is_unique vg = true
      · rw [hvgu, if_pos rfl]
        have hvgd : isDigitBit vg := unique_wf_digitBit hwf hvgu
        have hveq : vs = vg := digit_sub_digit_eq hd hvgd hsub
        have hvgm : ((vg ||| mg) == mg) = false := by
          cases h : (vg ||| mg) == mg
          · rfl
          · exfalso
            have h2 : sub vg mg := sub_of_lor_eq (by simpa using h)
            have h2' : sub vs mg := by rw [hveq]; exact h2
            have h3 : sub vs ms := sub_trans h2' hm
            rw [lor_eq_of_sub h3] at hvsm
            simp at hvsm
        rw [hvgm, if_neg (by simp)]
        apply ih htail _ hs
        rw [← hveq]
        exact sub_lor_mono hm vs
      · rw [if_neg (by simp [hvgu])]
        apply ih htail _ hs
        exact sub_trans hm (sub_lor_right vs ms)

theorem forall₂_map {α β γ : Type} (R : β → γ → Prop) (f : α → β)
    (h : α → γ) : ∀ (l : List α), (∀ x ∈ l, R (f x) (h x)) →
    List.Forall₂ R (l.map f) (l.map h) := by
  intro l
  induction l with
  | nil => intro _; exact List.Forall₂.nil
  | cons x xs ih =>
    intro hx
    exact List.Forall₂.cons (hx x (List.mem_cons_self x xs))
      (ih (fun y hy => hx y (List.mem_cons_of_mem x hy)))

theorem forall₂_append {α β : Type} {R : α → β → Prop} :
    ∀ {l₁ : List α} {l₂ : List β} {l₃ : List α} {l₄ : List β},
    List.Forall₂ R l₁ l₂ → List.Forall₂ R l₃ l₄ →
    List.Forall₂ R (l₁ ++ l₃) (l₂ ++ l₄) := by
  intro l₁
  induction l₁ with
  | nil =>
    intro l₂ l₃ l₄ h₁ h₂
    cases h₁
    exact h₂
  | cons x xs ih =>
    intro l₂ l₃ l₄ h₁ h₂
    cases h₁ with
    | cons hx hxs => exact List.Forall₂.cons hx (ih hxs h₂)

theorem forall₂_flatMap {α β γ : Type} (R : β → γ → Prop) (f : α → List β)
    (h : α → List γ) : ∀ (l : List α),
    (∀ x ∈ l, List.Forall₂ R (f x) (h x)) →
    List.Forall₂ R (l.flatMap f) (l.flatMap h) := by
  intro l
  induction l with
  | nil => intro _; exact List.Forall₂.nil
  | cons x xs ih =>
    intro hx
    rw [List.flatMap_cons, List.flatMap_cons]
    exact forall₂_append (hx x (List.mem_cons_self x xs))
      (ih (fun y hy => hx y (List.mem_cons_of_mem x hy)))

/-- A well-formed grid admitting a completion passes `is_valid`: the
resolved digits it already holds agree with the completion, which is
valid. -/
theorem valid_of_completion {g s : Grid} (hwf : WellFormed g)
    (hs : IsCompletion s g) : is_valid g = true := by
  obtain ⟨hlen, hsval, hcells⟩ := hs
  unfold is_valid
  rw [List.all_eq_true]
  intro i hi
  have hi9 : i < 9 := List.mem_range.mp hi
  have hcell : ∀ a b : Nat, a < 9 → b < 9 →
      sub (cellGet g a b) NINE_ONES ∧ isDigitBit (cellGet s a b) ∧
      sub (cellGet s a b) (cellGet g a b) := by
    intro a b ha hb
    have hidx : idx a b < 81 := by unfold idx; omega
    exact ⟨hwf.2 _ hidx, (hcells _ hidx).1, (hcells _ hidx).2⟩
  have hrow : is_valid_row g i = true := by
    unfold is_valid_row
    apply @valid_cells_lift _ (rowCells s i) ?_ _ _ (sub_refl 0)
      (is_valid_row_of_valid hsval hi9)
    unfold rowCells
    apply forall₂_map
    intro c hc
    have hc9 : c < 9 := List.mem_range.mp hc
    exact hcell i c hi9 hc9
  have hcol : is_valid_col g i = true := by
    unfold is_valid_col
    apply @valid_cells_lift _ (colCells s i) ?_ _ _ (sub_refl 0)
      (is_valid_col_of_valid hsval hi9)
    unfold colCells
    apply forall₂_map
    intro r hr
    have hr9 : r < 9 := List.mem_range.mp hr
    exact hcell r i hr9 hi9
  have hbox : is_valid_box g ((i / 3) * 3) ((i % 3) * 3) = true := by
    unfold is_valid_box
    apply @valid_cells_lift _ (boxCells s ((i / 3) * 3) ((i % 3) * 3))
      ?_ _ _ (sub_refl 0)
      (is_valid_box_of_valid hsval (by omega) (by omega))
    unfold boxCells
    apply forall₂_flatMap
    intro x hx
    have hx9 : x < 9 := by
      have := List.mem_range'_1.mp hx
      omega
    apply forall₂_map
    intro j hj
    have hj9 : j < 9 := by
      have := List.mem_range'_1.mp hj
      omega
    exact hcell x j hx9 hj9
  rw [hrow, hcol, hbox]
  rfl

theorem sub_antisymm {a b : Nat} (h1 : sub a b) (h2 : sub b a) : a = b :=
  Nat.le_antisymm (sub_le h1) (sub_le h2)

/-- If the current cell of a monotonically shrunk well-formed grid with a
completion is unresolved, so was the original cell. -/
theorem cell_nonunique_of_cur {sv pv gv : Nat} (hg9 : sub gv NINE_ONES)
    (hd : isDigitBit sv) (h1 : sub sv pv) (h2 : sub pv gv)
    (hcur : bitset_is_unique pv = false) : bitset_is_unique gv = false := by
  cases hgu : bitset_is_unique gv
  · rfl
  · exfalso
    have hgd : isDigitBit gv := unique_wf_digitBit hg9 hgu
    have hse : sv = gv := digit_sub_digit_eq hd hgd (sub_trans h1 h2)
    have hgp : sub gv pv := hse ▸ h1
    have hpe : pv = gv := sub_antisymm h2 hgp
    rw [hpe, hgu] at hcur
    cases hcur

theorem testBit_NINE_ONES (d : Nat) :
    Nat.testBit NINE_ONES d = decide (d < 9) := by
  have h : NINE_ONES = 2 ^ 9 - 1 := by unfold NINE_ONES; norm_num
  rw [h, Nat.testBit_two_pow_sub_one]

/-- If no resolved cell of the rectangle carries bit `d`, the mask keeps
bit `d`. -/
theorem make_bitset_testBit (g : Grid) (rs re cs ce : Nat) {d : Nat}
    (hd9 : d < 9)
    (hdist : ∀ i j, i ∈ List.range' rs (re - rs) → j ∈ List.range' cs (ce - cs) →
      bitset_is_unique (cellGet g i j) = true →
      (cellGet g i j).testBit d = false) :
    (make_bitset g rs re cs ce).testBit d = true := by
  unfold make_bitset
  apply foldl_inv (fun mask => mask.testBit d = true)
    (fun mask i => (List.range' cs (ce - cs)).foldl (fun mask j =>
      if bitset_is_unique (cellGet g i j) then
        (mask ^^^ cellGet g i j) &&& NINE_ONES
      else mask) mask)
    (List.range' rs (re - rs)) NINE_ONES
    (by rw [testBit_NINE_ONES]; simpa using hd9)
  intro mask i hmask hi
  apply foldl_inv (fun mask => mask.testBit d = true)
    (fun mask j => if bitset_is_unique (cellGet g i j) then
      (mask ^^^ cellGet g i j) &&& NINE_ONES else mask)
    (List.range' cs (ce - cs)) mask hmask
  intro mask' j hmask' hj
  by_cases hU : bitset_is_unique (cellGet g i j) = true
  · rw [if_pos hU]
    rw [Nat.testBit_land, Nat.testBit_xor, hmask', hdist i j hi hj hU,
      testBit_NINE_ONES]
    simpa using hd9
  · rw [if_neg hU]
    exact hmask'

/-- Row elimination never deletes a bit belonging to a completion. -/
theorem eliminate_row_preserves {g s : Grid} (hwf : WellFormed g)
    (hcomp : IsCompletion s g) {r : Nat} (hr : r < 9) :
    ∀ i, i < 81 → sub (s.getD i 0) ((eliminate_row g r).1.getD i 0) := by
  have key := foldl_inv (fun p : Grid × Bool =>
      (∀ i, i < 81 → sub (s.getD i 0) (p.1.getD i 0)) ∧
      (∀ i, sub (p.1.getD i 0) (g.getD i 0)))
    (fun p j =>
      if !(bitset_is_unique (cellGet p.1 r j)) then
        (cellSet p.1 r j (cellGet p.1 r j &&& make_bitset g r (r + 1) 0 9),
         (cellGet p.1 r j !=
           cellGet (cellSet p.1 r j
             (cellGet p.1 r j &&& make_bitset g r (r + 1) 0 9)) r j) || p.2)
      else p)
    (List.range 9) (g, false)
    ⟨fun i hi => (hcomp.2.2 i hi).2, fun i => sub_refl _⟩ ?step
  · exact fun i hi => key.1 i hi
  case step =>
    intro p j hp hjm
    have hj9 : j < 9 := List.mem_range.mp hjm
    by_cases hU : bitset_is_unique (cellGet p.1 r j) = true
    · simp only [hU, Bool.not_true, Bool.false_eq_true, if_false]
      exact hp
    · simp only [Bool.of_not_eq_true hU, Bool.not_false, if_true]
      have hidx : idx r j < 81 := by unfold idx; omega
      have hgnu : bitset_is_unique (cellGet g r j) = false :=
        cell_nonunique_of_cur (hwf.2 (idx r j) hidx)
          ((hcomp.2.2 (idx r j) hidx).1) (hp.1 (idx r j) hidx)
          (hp.2 (idx r j)) (Bool.of_not_eq_true hU)
      obtain ⟨d, hd9, he⟩ := (hcomp.2.2 (idx r j) hidx).1
      have hbit : (make_bitset g r (r + 1) 0 9).testBit d = true := by
        apply make_bitset_testBit g r (r + 1) 0 9 hd9
        intro i' j' hi' hj' hU'
        have hie : i' = r := by
          have := List.mem_range'_1.mp hi'
          omega
        subst hie
        have hj'9 : j' < 9 := by
          have := List.mem_range'_1.mp hj'
          omega
        have hj'ne : j' ≠ j := by
          intro hejj
          rw [hejj] at hU'
          rw [hU'] at hgnu
          cases hgnu
        have hidx' : idx i' j' < 81 := by unfold idx; omega
        -- the completion's digit at (i', j') differs from d
        have hsne : cellGet s i' j' ≠ cellGet s i' j := by
          have hval : valid_cells (rowCells s i') 0 = true :=
            is_valid_row_of_valid hcomp.2.1 (by omega)
          have h1 := region_resolved_distinct hval
            (p := j') (q := j)
            (by rw [rowCells_length]; exact hj'9)
            (by rw [rowCells_length]; omega) hj'ne
            (by rw [rowCells_getD s i' j' hj'9]
                exact digitBit_unique ((hcomp.2.2 (idx i' j') hidx').1))
          rw [rowCells_getD s i' j' hj'9, rowCells_getD s i' j (by omega)] at h1
          exact h1
        -- hence the original cell at (i', j') has no bit d
        cases hgb : (cellGet g i' j').testBit d
        · rfl
        · exfalso
          have hsb := completion_cell_bit ((hcomp.2.2 (idx i' j') hidx').1)
            ((hcomp.2.2 (idx i' j') hidx').2) hU' hd9 hgb
          obtain ⟨d', hd'9, he'⟩ := (hcomp.2.2 (idx i' j') hidx').1
          have hde : d' = d := by
            have := hsb
            rw [show s.getD (idx i' j') 0 = cellGet s i' j' from rfl] at he'
            rw [show s.getD (idx i' j') 0 = cellGet s i' j' from rfl] at this
            rw [he', Nat.one_shiftLeft, Nat.testBit_two_pow] at this
            simpa using this
          apply hsne
          show s.getD (idx i' j') 0 = s.getD (idx i' j) 0
          rw [he', he, hde]
      have hmask : sub (s.getD (idx r j) 0) (make_bitset g r (r + 1) 0 9) := by
        rw [he]
        exact sub_one_shift_iff.mpr hbit
      constructor
      · intro i hi
        by_cases hii : idx r j = i
        · rw [← hii]
          show sub (s.getD (idx r j) 0)
            ((p.1.set (idx r j) (cellGet p.1 r j &&&
              make_bitset g r (r + 1) 0 9)).getD (idx r j) 0)
          rw [getD_set_self']
          split
          · exact sub_and_intro (hp.1 (idx r j) hidx) hmask
          · exact hp.1 (idx r j) hidx
        · show sub (s.getD i 0) ((p.1.set (idx r j) _).getD i 0)
          rw [getD_set_ne hii]
          exact hp.1 i hi
      · exact cellSet_mask_sub hp.2 r j _

/-- Column elimination never deletes a bit belonging to a completion. -/
theorem eliminate_col_preserves {g s : Grid} (hwf : WellFormed g)
    (hcomp : IsCompletion s g) {c : Nat} (hc : c < 9) :
    ∀ i, i < 81 → sub (s.getD i 0) ((eliminate_col g c).1.getD i 0) := by
  have key := foldl_inv (fun p : Grid × Bool =>
      (∀ i, i < 81 → sub (s.getD i 0) (p.1.getD i 0)) ∧
      (∀ i, sub (p.1.getD i 0) (g.getD i 0)))
    (fun p r =>
      if !(bitset_is_unique (cellGet p.1 r c)) then
        (cellSet p.1 r c (cellGet p.1 r c &&& make_bitset g 0 9 c (c + 1)),
         (cellGet p.1 r c !=
           cellGet (cellSet p.1 r c
             (cellGet p.1 r c &&& make_bitset g 0 9 c (c + 1))) r c) || p.2)
      else p)
    (List.range 9) (g, false)
    ⟨fun i hi => (hcomp.2.2 i hi).2, fun i => sub_refl _⟩ ?step
  · exact fun i hi => key.1 i hi
  case step =>
    intro p r hp hrm
    have hr9 : r < 9 := List.mem_range.mp hrm
    by_cases hU : bitset_is_unique (cellGet p.1 r c) = true
    · simp only [hU, Bool.not_true, Bool.false_eq_true, if_false]
      exact hp
    · simp only [Bool.of_not_eq_true hU, Bool.not_false, if_true]
      have hidx : idx r c < 81 := by unfold idx; omega
      have hgnu : bitset_is_unique (cellGet g r c) = false :=
        cell_nonunique_of_cur (hwf.2 (idx r c) hidx)
          ((hcomp.2.2 (idx r c) hidx).1) (hp.1 (idx r c) hidx)
          (hp.2 (idx r c)) (Bool.of_not_eq_true hU)
      obtain ⟨d, hd9, he⟩ := (hcomp.2.2 (idx r c) hidx).1
      have hbit : (make_bitset g 0 9 c (c + 1)).testBit d = true := by
        apply make_bitset_testBit g 0 9 c (c + 1) hd9
        intro i' j' hi' hj' hU'
        have hje : j' = c := by
          have := List.mem_range'_1.mp hj'
          omega
        subst hje
        have hi'9 : i' < 9 := by
          have := List.mem_range'_1.mp hi'
          omega
        have hi'ne : i' ≠ r := by
          intro heir
          rw [heir] at hU'
          rw [hU'] at hgnu
          cases hgnu
        have hidx' : idx i' j' < 81 := by unfold idx; omega
        have hsne : cellGet s i' j' ≠ cellGet s r j' := by
          have hval : valid_cells (colCells s j') 0 = true :=
            is_valid_col_of_valid hcomp.2.1 (by omega)
          have h1 := region_resolved_distinct hval
            (p := i') (q := r)
            (by rw [colCells_length]; exact hi'9)
            (by rw [colCells_length]; omega) hi'ne
            (by rw [colCells_getD s j' i' hi'9]
                exact digitBit_unique ((hcomp.2.2 (idx i' j') hidx').1))
          rw [colCells_getD s j' i' hi'9, colCells_getD s j' r (by omega)] at h1
          exact h1
        cases hgb : (cellGet g i' j').testBit d
        · rfl
        · exfalso
          have hsb := completion_cell_bit ((hcomp.2.2 (idx i' j') hidx').1)
            ((hcomp.2.2 (idx i' j') hidx').2) hU' hd9 hgb
          obtain ⟨d', hd'9, he'⟩ := (hcomp.2.2 (idx i' j') hidx').1
          have hde : d' = d := by
            have h2 := hsb
            rw [show s.getD (idx i' j') 0 = cellGet s i' j' from rfl] at he'
            rw [show s.getD (idx i' j') 0 = cellGet s i' j' from rfl] at h2
            rw [he', Nat.one_shiftLeft, Nat.testBit_two_pow] at h2
            simpa using h2
          apply hsne
          show s.getD (idx i' j') 0 = s.getD (idx r j') 0
          rw [he', he, hde]
      have hmask : sub (s.getD (idx r c) 0) (make_bitset g 0 9 c (c + 1)) := by
        rw [he]
        exact sub_one_shift_iff.mpr hbit
      constructor
      · intro i hi
        by_cases hii : idx r c = i
        · rw [← hii]
          show sub (s.getD (idx r c) 0)
            ((p.1.set (idx r c) (cellGet p.1 r c &&&
              make_bitset g 0 9 c (c + 1))).getD (idx r c) 0)
          rw [getD_set_self']
          split
          · exact sub_and_intro (hp.1 (idx r c) hidx) hmask
          · exact hp.1 (idx r c) hidx
        · show sub (s.getD i 0) ((p.1.set (idx r c) _).getD i 0)
          rw [getD_set_ne hii]
          exact hp.1 i hi
      · exact cellSet_mask_sub hp.2 r c _

/-- Box elimination never deletes a bit belonging to a completion. -/
theorem eliminate_box_preserves {g s : Grid} (hwf : WellFormed g)
    (hcomp : IsCompletion s g) {a b : Nat}
    (ha : a = 0 ∨ a = 3 ∨ a = 6) (hb : b = 0 ∨ b = 3 ∨ b = 6) :
    ∀ i, i < 81 → sub (s.getD i 0) ((eliminate_box g a b).1.getD i 0) := by
  have key := foldl_inv (fun p : Grid × Bool =>
      (∀ i, i < 81 → sub (s.getD i 0) (p.1.getD i 0)) ∧
      (∀ i, sub (p.1.getD i 0) (g.getD i 0)))
    (fun p r =>
      (List.range' b 3).foldl (fun p j =>
        if !(bitset_is_unique (cellGet p.1 r j)) then
          (cellSet p.1 r j (cellGet p.1 r j &&& make_bitset g a (a + 3) b (b + 3)),
           (cellGet p.1 r j !=
             cellGet (cellSet p.1 r j
               (cellGet p.1 r j &&& make_bitset g a (a + 3) b (b + 3))) r j) || p.2)
        else p) p)
    (List.range' a 3) (g, false)
    ⟨fun i hi => (hcomp.2.2 i hi).2, fun i => sub_refl _⟩ ?step
  · exact fun i hi => key.1 i hi
  case step =>
    intro p r hp hrm
    have hr' := List.mem_range'_1.mp hrm
    apply foldl_inv (fun p : Grid × Bool =>
        (∀ i, i < 81 → sub (s.getD i 0) (p.1.getD i 0)) ∧
        (∀ i, sub (p.1.getD i 0) (g.getD i 0))) _ _ _ hp
    intro p' j hp' hjm
    have hj' := List.mem_range'_1.mp hjm
    have hr9 : r < 9 := by omega
    have hj9 : j < 9 := by omega
    by_cases hU : bitset_is_unique (cellGet p'.1 r j) = true
    · simp only [hU, Bool.not_true, Bool.false_eq_true, if_false]
      exact hp'
    · simp only [Bool.of_not_eq_true hU, Bool.not_false, if_true]
      have hidx : idx r j < 81 := by unfold idx; omega
      have hgnu : bitset_is_unique (cellGet g r j) = false :=
        cell_nonunique_of_cur (hwf.2 (idx r j) hidx)
          ((hcomp.2.2 (idx r j) hidx).1) (hp'.1 (idx r j) hidx)
          (hp'.2 (idx r j)) (Bool.of_not_eq_true hU)
      obtain ⟨d, hd9, he⟩ := (hcomp.2.2 (idx r j) hidx).1
      have hbit : (make_bitset g a (a + 3) b (b + 3)).testBit d = true := by
        apply make_bitset_testBit g a (a + 3) b (b + 3) hd9
        intro i' j' hi' hj'' hU'
        have hi'b := List.mem_range'_1.mp hi'
        have hj''b := List.mem_range'_1.mp hj''
        have hi'9 : i' < 9 := by omega
        have hj''9 : j' < 9 := by omega
        have hne : ¬(i' = r ∧ j' = j) := by
          rintro ⟨rfl, rfl⟩
          rw [hU'] at hgnu
          cases hgnu
        have hidx' : idx i' j' < 81 := by unfold idx; omega
        have hsne : cellGet s i' j' ≠ cellGet s r j := by
          have hval : valid_cells (boxCells s a b) 0 = true :=
            is_valid_box_of_valid hcomp.2.1 ha hb
          have hq1 : 3 * (i' - a) + (j' - b) < 9 := by omega
          have hq2 : 3 * (r - a) + (j - b) < 9 := by omega
          have hqne : 3 * (i' - a) + (j' - b) ≠ 3 * (r - a) + (j - b) := by
            omega
          have h1 := region_resolved_distinct hval
            (p := 3 * (i' - a) + (j' - b)) (q := 3 * (r - a) + (j - b))
            (by rw [boxCells_length]; exact hq1)
            (by rw [boxCells_length]; exact hq2) hqne
            (by rw [boxCells_getD s a b (i' - a) (j' - b) (by omega) (by omega)]
                rw [show a + (i' - a) = i' by omega, show b + (j' - b) = j' by omega]
                exact digitBit_unique ((hcomp.2.2 (idx i' j') hidx').1))
          rw [boxCells_getD s a b (i' - a) (j' - b) (by omega) (by omega),
            boxCells_getD s a b (r - a) (j - b) (by omega) (by omega)] at h1
          rw [show a + (i' - a) = i' by omega, show b + (j' - b) = j' by omega,
            show a + (r - a) = r by omega, show b + (j - b) = j by omega] at h1
          exact h1
        cases hgb : (cellGet g i' j').testBit d
        · rfl
        · exfalso
          have hsb := completion_cell_bit ((hcomp.2.2 (idx i' j') hidx').1)
            ((hcomp.2.2 (idx i' j') hidx').2) hU' hd9 hgb
          obtain ⟨d', hd'9, he'⟩ := (hcomp.2.2 (idx i' j') hidx').1
          have hde : d' = d := by
            have h2 := hsb
            rw [show s.getD (idx i' j') 0 = cellGet s i' j' from rfl] at he'
            rw [show s.getD (idx i' j') 0 = cellGet s i' j' from rfl] at h2
            rw [he', Nat.one_shiftLeft, Nat.testBit_two_pow] at h2
            simpa using h2
          apply hsne
          show s.getD (idx i' j') 0 = s.getD (idx r j) 0
          rw [he', he, hde]
      have hmask : sub (s.getD (idx r j) 0)
          (make_bitset g a (a + 3) b (b + 3)) := by
        rw [he]
        exact sub_one_shift_iff.mpr hbit
      constructor
      · intro i hi
        by_cases hii : idx r j = i
        · rw [← hii]
          show sub (s.getD (idx r j) 0)
            ((p'.1.set (idx r j) (cellGet p'.1 r j &&&
              make_bitset g a (a + 3) b (b + 3))).getD (idx r j) 0)
          rw [getD_set_self']
          split
          · exact sub_and_intro (hp'.1 (idx r j) hidx) hmask
          · exact hp'.1 (idx r j) hidx
        · show sub (s.getD i 0) ((p'.1.set (idx r j) _).getD i 0)
          rw [getD_set_ne hii]
          exact hp'.1 i hi
      · exact cellSet_mask_sub hp'.2 r j _

theorem IsCompletion_step {s g h : Grid} (hc : IsCompletion s g)
    (hlen : h.length = g.length)
    (hsub : ∀ i, i < 81 → sub (s.getD i 0) (h.getD i 0)) :
    IsCompletion s h :=
  ⟨hc.1.trans hlen.symm, hc.2.1, fun i hi => ⟨(hc.2.2 i hi).1, hsub i hi⟩⟩

/-- One elimination pass keeps well-formedness and the completion. -/
theorem solve_pass_preserves {g s : Grid} (hwf : WellFormed g)
    (hcomp : IsCompletion s g) :
    WellFormed (solve_pass g).1 ∧ IsCompletion s (solve_pass g).1 := by
  have hrow : ∀ (p : Grid × Bool) (r : Nat), r < 9 →
      WellFormed p.1 ∧ IsCompletion s p.1 →
      WellFormed (eliminate_row p.1 r).1 ∧
        IsCompletion s (eliminate_row p.1 r).1 := by
    intro p r hr ⟨h1, h2⟩
    exact ⟨WellFormed_of_sub h1 (eliminate_row_len p.1 r)
        (fun i _ => eliminate_row_sub p.1 r i),
      IsCompletion_step h2 (eliminate_row_len p.1 r)
        (eliminate_row_preserves h1 h2 hr)⟩
  have hcol : ∀ (p : Grid × Bool) (c : Nat), c < 9 →
      WellFormed p.1 ∧ IsCompletion s p.1 →
      WellFormed (eliminate_col p.1 c).1 ∧
        IsCompletion s (eliminate_col p.1 c).1 := by
    intro p c hcl ⟨h1, h2⟩
    exact ⟨WellFormed_of_sub h1 (eliminate_col_len p.1 c)
        (fun i _ => eliminate_col_sub p.1 c i),
      IsCompletion_step h2 (eliminate_col_len p.1 c)
        (eliminate_col_preserves h1 h2 hcl)⟩
  have hbox : ∀ (p : Grid × Bool) (a b : Nat),
      (a = 0 ∨ a = 3 ∨ a = 6) → (b = 0 ∨ b = 3 ∨ b = 6) →
      WellFormed p.1 ∧ IsCompletion s p.1 →
      WellFormed (eliminate_box p.1 a b).1 ∧
        IsCompletion s (eliminate_box p.1 a b).1 := by
    intro p a b ha hb ⟨h1, h2⟩
    exact ⟨WellFormed_of_sub h1 (eliminate_box_len p.1 a b)
        (fun i _ => eliminate_box_sub p.1 a b i),
      IsCompletion_step h2 (eliminate_box_len p.1 a b)
        (eliminate_box_preserves h1 h2 ha hb)⟩
  unfold solve_pass
  apply foldl_inv (fun p : Grid × Bool => WellFormed p.1 ∧ IsCompletion s p.1)
    (fun p row => ([0, 3, 6] : List Nat).foldl (fun p col =>
      let q := eliminate_box p.1 row col; (q.1, q.2 || p.2)) p)
    ([0, 3, 6] : List Nat) _ ?init2 ?step2
  case init2 =>
    apply foldl_inv (fun p : Grid × Bool => WellFormed p.1 ∧ IsCompletion s p.1)
      (fun p col => let q := eliminate_col p.1 col; (q.1, q.2 || p.2))
      (List.range 9) _ ?init1 ?step1
    case init1 =>
      apply foldl_inv (fun p : Grid × Bool =>
          WellFormed p.1 ∧ IsCompletion s p.1)
        (fun p row => let q := eliminate_row p.1 row; (q.1, q.2 || p.2))
        (List.range 9) _ ⟨hwf, hcomp⟩ ?step0
      case step0 =>
        intro p r hq hrm
        exact hrow p r (List.mem_range.mp hrm) hq
    case step1 =>
      intro p c hq hcm
      exact hcol p c (List.mem_range.mp hcm) hq
  case step2 =>
    intro p row hq hrm
    have hrow3 : row = 0 ∨ row = 3 ∨ row = 6 := by
      have h := hrm
      simp only [List.mem_cons, List.not_mem_nil, or_false] at h
      exact h
    apply foldl_inv (fun p : Grid × Bool => WellFormed p.1 ∧ IsCompletion s p.1)
      (fun p col => let q := eliminate_box p.1 row col; (q.1, q.2 || p.2))
      ([0, 3, 6] : List Nat) _ hq
    intro p' col hq' hcm
    have hcol3 : col = 0 ∨ col = 3 ∨ col = 6 := by
      have h := hcm
      simp only [List.mem_cons, List.not_mem_nil, or_false] at h
      exact h
    exact hbox p' row col hrow3 hcol3 hq'

/-- The elimination loop keeps well-formedness and the completion. -/
theorem solve_loop_preserves : ∀ (fuel : Nat) (g s : Grid), WellFormed g →
    IsCompletion s g →
    WellFormed (solve_loop fuel g).grid ∧
      IsCompletion s (solve_loop fuel g).grid := by
  intro fuel
  induction fuel with
  | zero => intro g s h1 h2; exact ⟨h1, h2⟩
  | succ fuel ih =>
    intro g s h1 h2
    by_cases hn : needs_solving g
    · rw [solve_loop_succ, if_pos hn]
      have hp := solve_pass_preserves h1 h2
      by_cases hv : is_valid (solve_pass g).1 = false
      · rw [if_pos hv]
        exact hp
      · rw [if_neg hv]
        by_cases hch : (solve_pass g).2 = false
        · rw [if_pos hch]
          exact hp
        · rw [if_neg hch]
          exact ih (solve_pass g).1 s hp.1 hp.2
    · rw [solve_loop_succ, if_neg hn]
      exact ⟨h1, h2⟩

/-- `solve` keeps well-formedness and the completion. -/
theorem solve_preserves {g s : Grid} (hwf : WellFormed g)
    (hcomp : IsCompletion s g) :
    WellFormed (solve g).grid ∧ IsCompletion s (solve g).grid := by
  unfold solve
  by_cases hv : is_valid g
  · rw [if_pos hv]
    exact solve_loop_preserves _ g s hwf hcomp
  · rw [if_neg hv]
    exact ⟨hwf, hcomp⟩

/-! ## Completeness of the backtracking solver -/

/-- Completeness of the digit loop: when the solution's digit for the
scanned cell is among the numbers still to try, the loop succeeds. -/
theorem try_nums_complete
    (fuel : Nat) (g s : Grid) (r c : Nat)
    (ih : ∀ h, WellFormed h → gridSum h < fuel → (∃ t, IsCompletion t h) →
      (generic_solve_fuel fuel h).1 = true)
    (hwf : WellFormed g) (hs : IsCompletion s g)
    (hsum : gridSum g ≤ fuel)
    (hidx : idx r c < 81)
    (hgnu : bitset_is_unique (g.getD (idx r c) 0) = false)
    {d : Nat} (hd9 : d < 9) (hsd : s.getD (idx r c) 0 = 1 <<< d) :
    ∀ (nums : List Nat) (h : Grid),
    (d + 1) ∈ nums →
    IsCompletion s h → (∀ i, sub (h.getD i 0) (g.getD i 0)) →
    h.length = g.length →
    (try_nums (generic_solve_fuel fuel) g r c nums h).1 = true := by
  have hgbit : (g.getD (idx r c) 0).testBit d = true := by
    apply sub_iff_testBit.mp ((hs.2.2 (idx r c) hidx).2) d
    rw [hsd, Nat.one_shiftLeft, Nat.testBit_two_pow]
    simp
  have hcontain_d : contain (cellGet g r c) (d + 1) = true := by
    unfold contain
    apply decide_eq_true
    show 0 < List.getD g (idx r c) 0 &&& 1 <<< (d + 1 - 1)
    rw [Nat.add_sub_cancel, Nat.one_shiftLeft, Nat.and_two_pow, hgbit]
    simpa using Nat.two_pow_pos d
  intro nums
  induction nums with
  | nil => intro h hmem; cases hmem
  | cons num rest ihl =>
    intro h hmem hsh hsub hlen
    rw [try_nums_cons]
    by_cases hcn : contain (cellGet g r c) num = true
    · rw [if_pos hcn]
      cases hres : generic_solve_fuel fuel (trial h r c num) with
      | mk b g2 =>
        cases b
        · show (try_nums (generic_solve_fuel fuel) g r c rest g).1 = true
          by_cases hnd : num = d + 1
          · exfalso
            subst hnd
            have hlen81 : h.length = 81 := hlen.trans hwf.1
            have hidxh : idx r c < h.length := by omega
            have htcell : (trial h r c (d + 1)).getD (idx r c) 0 = 1 <<< d := by
              rw [trial_getD_eq h r c (d + 1) hidxh, Nat.add_sub_cancel]
            have htsub : ∀ i, i < 81 →
                sub ((trial h r c (d + 1)).getD i 0) (g.getD i 0) := by
              intro i hi
              by_cases hii : i = idx r c
              · subst hii
                rw [htcell]
                exact sub_one_shift_iff.mpr hgbit
              · rw [trial_getD_ne h r c (d + 1) hii]
                exact hsub i
            have htne : (trial h r c (d + 1)).getD (idx r c) 0 ≠
                g.getD (idx r c) 0 := by
              rw [htcell]
              intro heq
              have : bitset_is_unique (g.getD (idx r c) 0) = true := by
                rw [← heq]
                exact digitBit_unique ⟨d, hd9, rfl⟩
              rw [this] at hgnu
              cases hgnu
            have htlt : gridSum (trial h r c (d + 1)) < gridSum g :=
              gridSum_lt_of_sub hidx htsub htne
            have htwf : WellFormed (trial h r c (d + 1)) :=
              WellFormed_of_sub hwf ((trial_len h r c (d + 1)).trans hlen) htsub
            have htcomp : IsCompletion s (trial h r c (d + 1)) := by
              refine ⟨hsh.1.trans (trial_len h r c (d + 1)).symm, hs.2.1,
                fun i hi => ⟨(hs.2.2 i hi).1, ?_⟩⟩
              by_cases hii : i = idx r c
              · subst hii
                rw [htcell, hsd]
                exact sub_refl _
              · rw [trial_getD_ne h r c (d + 1) hii]
                exact (hsh.2.2 i hi).2
            have hok := ih (trial h r c (d + 1)) htwf (by omega) ⟨s, htcomp⟩
            rw [hres] at hok
            cases hok
          · have hmem' : d + 1 ∈ rest := by
              rcases List.mem_cons.mp hmem with he | hm
              · exact absurd he.symm hnd
              · exact hm
            exact ihl g hmem' hs (fun i => sub_refl _) rfl
        · rfl
    · rw [if_neg hcn]
      have hnd : num ≠ d + 1 := fun he => hcn (he ▸ hcontain_d)
      have hmem' : d + 1 ∈ rest := by
        rcases List.mem_cons.mp hmem with he | hm
        · exact absurd he.symm hnd
        · exact hm
      exact ihl h hmem' hsh hsub hlen

/-- Completeness: on a well-formed grid admitting a completion, the
backtracking solver (with enough fuel) reports success. -/
theorem generic_solve_fuel_complete : ∀ (fuel : Nat) (g : Grid),
    WellFormed g → gridSum g < fuel → (∃ s, IsCompletion s g) →
    (generic_solve_fuel fuel g).1 = true := by
  intro fuel
  induction fuel with
  | zero =>
    intro g _ hsum _
    exact absurd hsum (Nat.not_lt_zero _)
  | succ fuel ih =>
    intro g hwf hsum ⟨s, hs⟩
    rw [generic_solve_fuel_succ]
    have hv : is_valid g = true := valid_of_completion hwf hs
    rw [hv]
    simp only [Bool.not_true, Bool.false_eq_true, if_false]
    cases hfo : first_open g with
    | none => rfl
    | some rc =>
      cases rc with
      | mk r c =>
        obtain ⟨hr9, hc9, hopen⟩ := first_open_some hfo
        have hidx : idx r c < 81 := by unfold idx; omega
        show (if (solve g).ok then (true, (solve g).grid)
          else if bitset_is_unique (cellGet (solve g).grid r c) then
            generic_solve_fuel fuel (solve g).grid
          else try_nums (generic_solve_fuel fuel) g r c
            [1, 2, 3, 4, 5, 6, 7, 8, 9] (solve g).grid).1 = true
        cases hok : (solve g).ok
        · have hpres := solve_preserves hwf hs
          show (if bitset_is_unique (cellGet (solve g).grid r c) then
              generic_solve_fuel fuel (solve g).grid
            else try_nums (generic_solve_fuel fuel) g r c
              [1, 2, 3, 4, 5, 6, 7, 8, 9] (solve g).grid).1 = true
          cases hun : bitset_is_unique (cellGet (solve g).grid r c)
          · show (try_nums (generic_solve_fuel fuel) g r c
              [1, 2, 3, 4, 5, 6, 7, 8, 9] (solve g).grid).1 = true
            obtain ⟨d, hd9, hsd⟩ := (hs.2.2 (idx r c) hidx).1
            apply try_nums_complete fuel g s r c ih hwf hs (by omega) hidx
              hopen hd9 hsd [1, 2, 3, 4, 5, 6, 7, 8, 9] (solve g).grid
              ?_ hpres.2 (fun i => solve_sub g i) (solve_len g)
            have : d + 1 ≤ 9 := by omega
            simp only [List.mem_cons, List.not_mem_nil, or_false]
            omega
          · show (generic_solve_fuel fuel (solve g).grid).1 = true
            apply ih (solve g).grid hpres.1 ?_ ⟨s, hpres.2⟩
            have hne : (solve g).grid.getD (idx r c) 0 ≠ g.getD (idx r c) 0 := by
              intro heq
              have h2 : bitset_is_unique (List.getD (solve g).grid (idx r c) 0) =
                  bitset_is_unique (List.getD g (idx r c) 0) := by rw [heq]
              have h3 : bitset_is_unique
                  (List.getD (solve g).grid (idx r c) 0) = true := hun
              rw [h3, hopen] at h2
              cases h2
            have := gridSum_lt_of_sub hidx (fun i _ => solve_sub g i) hne
            omega
        · rfl

/-- A completion of a fully resolved grid is that grid itself. -/
theorem completion_of_resolved {g t : Grid} (hg81 : g.length = 81)
    (hres : ∀ i, i < 81 → isDigitBit (g.getD i 0))
    (ht : IsCompletion t g) : t = g := by
  have hlen : t.length = g.length := ht.1
  apply List.ext_getElem (by omega)
  intro i h1 h2
  have hi : i < 81 := by omega
  have hcell := ht.2.2 i hi
  have heq : t.getD i 0 = g.getD i 0 :=
    digit_sub_digit_eq hcell.1 (hres i hi) hcell.2
  rwa [List.getD_eq_getElem _ _ h1, List.getD_eq_getElem _ _ h2] at heq

/-- C2: on a well-formed grid (81 cells of 9-bit candidate sets) that has
exactly one completion to a fully resolved valid Sudoku consistent with its
candidate sets, `generic_solve` terminates with success and returns exactly
that unique solution. -/
theorem generic_solve_unique_solution (g s : Grid) (hwf : WellFormed g)
    (hs : IsCompletion s g) (huniq : ∀ t, IsCompletion t g → t = s) :
    generic_solve g = (true, s) := by
  have hc : (generic_solve g).1 = true := by
    show (generic_solve_fuel (gridSum g + 1) g).1 = true
    exact generic_solve_fuel_complete (gridSum g + 1) g hwf (by omega) ⟨s, hs⟩
  have heta : generic_solve g = ((generic_solve g).1, (generic_solve g).2) := rfl
  rw [hc] at heta
  have hsound := generic_solve_sound hwf heta
  rw [heta, huniq (generic_solve g).2 hsound]

/-- C2 witness: the fully solved grid is well-formed, is its own unique
completion, and the backtracking solver returns it with success. -/
theorem generic_solve_unique_solution_witness :
    WellFormed solvedGrid ∧ IsCompletion solvedGrid solvedGrid ∧
    generic_solve solvedGrid = (true, solvedGrid) :=
  ⟨by decide, by decide,
    generic_solve_unique_solution solvedGrid solvedGrid (by decide) (by decide)
      (fun t ht => completion_of_resolved (by decide) (by decide) ht)⟩

/-! ## The loader (`load`) and printer (`print`)

Standard input is modelled as a `List Char`; `getchar` takes the head of the
list and `EOF` is the empty list.  Each loader function returns its C result
together with the grid state and the unconsumed remainder of the stream. -/

/-- C `isdigit` on the character code, as the C code receives it from
`getchar`. -/
def isdigitChar (c : Char) : Bool := decide (48 ≤ c.toNat ∧ c.toNat ≤ 57)

/-- The border line `"+-------+-------+-------+\n"` used by the loader and
the printer. -/
def pm_row : List Char := "+-------+-------+-------+\n".toList

/-- The border line without its leading `+` (which `load` itself consumes). -/
def pmTail : List Char := "-------+-------+-------+\n".toList

/-- C `check_plus_minus`: match the rest of the border line against the
stream, starting at position `col_index` of the pattern. -/
def check_plus_minus : Nat → List Char → Bool × List Char
  | ci, [] => (decide (ci = 26), [])
  | ci, c :: rest =>
    if ci < 26 then
      if pm_row.getD ci ' ' = c then check_plus_minus (ci + 1) rest
      else (false, rest)
    else (decide (ci = 26), c :: rest)

/-- The loop of C `check_normal_row`: `cell_pointer` walks the 25 characters
of a cell row (`| a b c | d e f | g h i |`), then a final newline is read. -/
def check_normal_row_loop : Nat → Nat → Grid → Nat → List Char →
    Bool × Grid × List Char
  | _, _, g, _, [] => (false, g, [])
  | row, col, g, cp, c :: rest =>
    if cp < 25 then
      if cp % 8 = 0 then
        if c = '|' then check_normal_row_loop row col g (cp + 1) rest
        else (false, g, rest)
      else if cp % 2 = 0 then
        if c = '.' ∨ c = '0' then
          check_normal_row_loop row (col + 1)
            (cellSet g row col NINE_ONES) (cp + 1) rest
        else if c = '!' then
          check_normal_row_loop row (col + 1)
            (cellSet g row col EMPTY_CELL) (cp + 1) rest
        else if '1' ≤ c ∧ c ≤ '9' then
          check_normal_row_loop row (col + 1)
            (cellSet g row col (bitset_add 0 (c.toNat - 48))) (cp + 1) rest
        else (false, g, rest)
      else
        if c = ' ' then check_normal_row_loop row col g (cp + 1) rest
        else (false, g, rest)
    else if cp = 25 then (decide (c = '\n'), g, rest)
    else (false, g, c :: rest)

/-- C `check_normal_row`. -/
def check_normal_row (row : Nat) (g : Grid) (input : List Char) :
    Bool × Grid × List Char :=
  check_normal_row_loop row 0 g 0 input

/-- One `check_normal_row` iteration of the `load_ascii_format` loop
(short-circuiting on an earlier failure). -/
def step_normal (row : Nat) (st : Bool × Grid × List Char) :
    Bool × Grid × List Char :=
  match st with
  | (true, g, input) => check_normal_row row g input
  | (false, g, input) => (false, g, input)

/-- One `check_plus_minus(0)` iteration of the `load_ascii_format` loop. -/
def step_pm (st : Bool × Grid × List Char) : Bool × Grid × List Char :=
  match st with
  | (true, g, input) =>
    match check_plus_minus 0 input with
    | (b, rest) => (b, g, rest)
  | (false, g, input) => (false, g, input)

/-- C `load_ascii_format`: `rows_loaded` runs 1..12 — three cell rows, a
border, three cell rows, a border, three cell rows, a border (the very first
border was already consumed by `load`). -/
def load_ascii_format (g : Grid) (input : List Char) :
    Bool × Grid × List Char :=
  step_pm (step_normal 8 (step_normal 7 (step_normal 6
  (step_pm (step_normal 5 (step_normal 4 (step_normal 3
  (step_pm (step_normal 2 (step_normal 1 (step_normal 0
  (true, g, input))))))))))))

/-- The loop of C `load_numeric_format`, from `cell_pointer = 1` (cell 0 was
written by `load` itself). -/
def load_numeric_loop : Nat → Grid → List Char → Bool × Grid × List Char
  | cp, g, [] => (decide (cp = 81), g, [])
  | cp, g, c :: rest =>
    if cp < 81 then
      if isdigitChar c then
        load_numeric_loop (cp + 1)
          (g.set cp (if c = '0' then NINE_ONES
                     else bitset_add 0 (c.toNat - 48))) rest
      else (false, g, rest)
    else if cp = 81 then (decide (c = '\n'), g, rest)
    else (false, g, c :: rest)

/-- C `load`: dispatch on the first character — a digit starts the numeric
format, `+` starts the bordered ASCII format, anything else is an error.
A failing numeric attempt leaves its partial writes in the grid, exactly as
in the C code. -/
def load (g : Grid) (input : List Char) : Bool × Grid × List Char :=
  match input with
  | [] => (false, g, [])
  | c :: rest =>
    if isdigitChar c then
      load_numeric_loop 1
        (g.set 0 (if c = '0' then NINE_ONES
                  else bitset_add 0 (c.toNat - 48))) rest
    else if c = '+' then
      match check_plus_minus 1 rest with
      | (true, rest2) => load_ascii_format g rest2
      | (false, rest2) => (false, g, rest2)
    else (false, g, rest)

/-- The digit printed by `printf("%d ", ...)` for the single-digit values
the printer produces. -/
def digitChar (n : Int) : Char := Char.ofNat (48 + n.toNat)

/-- The two characters `print` emits for one cell. -/
def printCell (v : Nat) : List Char :=
  if v = 0 then ['!', ' ']
  else if bitset_is_unique v then [digitChar (bitset_next v 0), ' ']
  else ['.', ' ']

/-- One cell row of `print` output. -/
def printRow (g : Grid) (i : Nat) : List Char :=
  ['|', ' '] ++ (printCell (cellGet g i 0) ++ (printCell (cellGet g i 1) ++
  (printCell (cellGet g i 2) ++ (['|', ' '] ++ (printCell (cellGet g i 3) ++
  (printCell (cellGet g i 4) ++ (printCell (cellGet g i 5) ++ (['|', ' '] ++
  (printCell (cellGet g i 6) ++ (printCell (cellGet g i 7) ++
  (printCell (cellGet g i 8) ++ ['|', '\n'])))))))))))

/-- C `print`: border, three cell rows, border, three cell rows, border,
three cell rows, border. -/
def print (g : Grid) : List Char :=
  pm_row ++ (printRow g 0 ++ (printRow g 1 ++ (printRow g 2 ++
  (pm_row ++ (printRow g 3 ++ (printRow g 4 ++ (printRow g 5 ++
  (pm_row ++ (printRow g 6 ++ (printRow g 7 ++ (printRow g 8 ++
  pm_row)))))))))))

/-! ### Specification-side description of a well-formed bordered input -/

/-- The characters the ASCII loader accepts in a cell position. -/
def validChars : List Char :=
  ['.', '0', '!', '1', '2', '3', '4', '5', '6', '7', '8', '9']

/-- Open-cell normalization of the round trip: `0` prints as `.`. -/
def normCell (c : Char) : Char := if c = '0' then '.' else c

/-- The cell value the ASCII loader stores for an accepted cell character. -/
def loadCell (c : Char) : Nat :=
  if c = '.' ∨ c = '0' then NINE_ONES
  else if c = '!' then EMPTY_CELL
  else bitset_add 0 (c.toNat - 48)

/-- Cell row `i` of a bordered text whose 81 cell characters are `cells`. -/
def rowLine (cells : List Char) (i : Nat) : List Char :=
  ['|', ' ', cells.getD (9 * i) ' ', ' ', cells.getD (9 * i + 1) ' ', ' ',
   cells.getD (9 * i + 2) ' ', ' ', '|', ' ', cells.getD (9 * i + 3) ' ', ' ',
   cells.getD (9 * i + 4) ' ', ' ', cells.getD (9 * i + 5) ' ', ' ', '|', ' ',
   cells.getD (9 * i + 6) ' ', ' ', cells.getD (9 * i + 7) ' ', ' ',
   cells.getD (9 * i + 8) ' ', ' ', '|', '\n']

/-- The full bordered text with cell characters `cells`. -/
def asciiText (cells : List Char) : List Char :=
  pm_row ++ (rowLine cells 0 ++ (rowLine cells 1 ++ (rowLine cells 2 ++
  (pm_row ++ (rowLine cells 3 ++ (rowLine cells 4 ++ (rowLine cells 5 ++
  (pm_row ++ (rowLine cells 6 ++ (rowLine cells 7 ++ (rowLine cells 8 ++
  pm_row)))))))))))

/-- Row `row` of the grid overwritten with `f 0 .. f 8`. -/
def setRow (g : Grid) (row : Nat) (f : Nat → Nat) : Grid :=
  (List.range 9).foldl (fun h j => cellSet h row j (f j)) g

/-- The grid state after the ASCII loader has consumed cell row `i` into
grid row `row`. -/
def loadRowG (g : Grid) (row : Nat) (cells : List Char) (i : Nat) : Grid :=
  setRow g row (fun j => loadCell (cells.getD (9 * i + j) ' '))

/-- The grid the ASCII loader builds from the 81 cell characters `cells`. -/
def loadedGrid (g : Grid) (cells : List Char) : Grid :=
  (List.range 9).foldl (fun h r => loadRowG h r cells r) g

/-- An all-zero starting grid standing for the caller's uninitialized
array (the loader overwrites every cell before a successful return). -/
def blankGrid : Grid := List.replicate 81 0

/-- The 81-character numeric-format input used against the round-trip
claim. -/
def numericInput : List Char := List.replicate 81 '1'

/-! ### Stepping lemmas for the loader -/

/-- One unfolding of the `check_normal_row` loop on a nonempty stream. -/
theorem cnr_step_cons (row col : Nat) (g : Grid) (cp : Nat) (c : Char)
    (rest : List Char) :
    check_normal_row_loop row col g cp (c :: rest) =
    (if cp < 25 then
      if cp % 8 = 0 then
        if c = '|' then check_normal_row_loop row col g (cp + 1) rest
        else (false, g, rest)
      else if cp % 2 = 0 then
        if c = '.' ∨ c = '0' then
          check_normal_row_loop row (col + 1)
            (cellSet g row col NINE_ONES) (cp + 1) rest
        else if c = '!' then
          check_normal_row_loop row (col + 1)
            (cellSet g row col EMPTY_CELL) (cp + 1) rest
        else if '1' ≤ c ∧ c ≤ '9' then
          check_normal_row_loop row (col + 1)
            (cellSet g row col (bitset_add 0 (c.toNat - 48))) (cp + 1) rest
        else (false, g, rest)
      else
        if c = ' ' then check_normal_row_loop row col g (cp + 1) rest
        else (false, g, rest)
    else if cp = 25 then (decide (c = '\n'), g, rest)
    else (false, g, c :: rest)) := rfl

/-- A border position consumes its `|`. -/
theorem cnr_bar_step (row col : Nat) (g : Grid) (cp cq : Nat)
    (rest : List Char) (hq : cp + 1 = cq) (h1 : cp < 25) (h8 : cp % 8 = 0) :
    check_normal_row_loop row col g cp ('|' :: rest) =
    check_normal_row_loop row col g cq rest := by
  subst hq
  rw [cnr_step_cons, if_pos h1, if_pos h8, if_pos rfl]

/-- An odd position consumes its space. -/
theorem cnr_space_step (row col : Nat) (g : Grid) (cp cq : Nat)
    (rest : List Char) (hq : cp + 1 = cq) (h1 : cp < 25)
    (h8 : ¬ cp % 8 = 0) (h2 : ¬ cp % 2 = 0) :
    check_normal_row_loop row col g cp (' ' :: rest) =
    check_normal_row_loop row col g cq rest := by
  subst hq
  rw [cnr_step_cons, if_pos h1, if_neg h8, if_neg h2, if_pos rfl]

/-- A cell position consumes an accepted cell character and stores its
value. -/
theorem cnr_cell_step (row col col' : Nat) (g : Grid) (cp cq : Nat)
    (c : Char) (rest : List Char) (hcol : col + 1 = col') (hq : cp + 1 = cq)
    (h1 : cp < 25) (h8 : ¬ cp % 8 = 0) (h2 : cp % 2 = 0)
    (hc : c ∈ validChars) :
    check_normal_row_loop row col g cp (c :: rest) =
    check_normal_row_loop row col' (cellSet g row col (loadCell c)) cq rest := by
  subst hcol
  subst hq
  rw [cnr_step_cons, if_pos h1, if_neg h8, if_pos h2]
  simp only [validChars, List.mem_cons, List.not_mem_nil, or_false] at hc
  rcases hc with rfl | rfl | rfl | rfl | rfl | rfl | rfl | rfl | rfl | rfl | rfl | rfl
  all_goals rfl

/-- At position 25 the final newline is consumed and the row succeeds. -/
theorem cnr_end (row col : Nat) (g : Grid) (rest : List Char) :
    check_normal_row_loop row col g 25 ('\n' :: rest) = (true, g, rest) := rfl

/-- A whole cell row of well-formed input loads successfully, writing the
nine cell values into grid row `row`. -/
theorem check_normal_row_ok (row : Nat) (g : Grid) (cells : List Char)
    (i : Nat) (rest : List Char)
    (h0 : cells.getD (9 * i) ' ' ∈ validChars)
    (h1 : cells.getD (9 * i + 1) ' ' ∈ validChars)
    (h2 : cells.getD (9 * i + 2) ' ' ∈ validChars)
    (h3 : cells.getD (9 * i + 3) ' ' ∈ validChars)
    (h4 : cells.getD (9 * i + 4) ' ' ∈ validChars)
    (h5 : cells.getD (9 * i + 5) ' ' ∈ validChars)
    (h6 : cells.getD (9 * i + 6) ' ' ∈ validChars)
    (h7 : cells.getD (9 * i + 7) ' ' ∈ validChars)
    (h8 : cells.getD (9 * i + 8) ' ' ∈ validChars) :
    check_normal_row_loop row 0 g 0 (rowLine cells i ++ rest) =
    (true, loadRowG g row cells i, rest) := by
  simp only [rowLine, List.cons_append, List.nil_append]
  rw [cnr_bar_step row 0 g 0 1 _ rfl (by decide) (by decide)]
  rw [cnr_space_step row 0 _ 1 2 _ rfl (by decide) (by decide) (by decide)]
  rw [cnr_cell_step row 0 1 _ 2 3 _ _ rfl rfl (by decide) (by decide)
    (by decide) h0]
  rw [cnr_space_step row 1 _ 3 4 _ rfl (by decide) (by decide) (by decide)]
  rw [cnr_cell_step row 1 2 _ 4 5 _ _ rfl rfl (by decide) (by decide)
    (by decide) h1]
  rw [cnr_space_step row 2 _ 5 6 _ rfl (by decide) (by decide) (by decide)]
  rw [cnr_cell_step row 2 3 _ 6 7 _ _ rfl rfl (by decide) (by decide)
    (by decide) h2]
  rw [cnr_space_step row 3 _ 7 8 _ rfl (by decide) (by decide) (by decide)]
  rw [cnr_bar_step row 3 _ 8 9 _ rfl (by decide) (by decide)]
  rw [cnr_space_step row 3 _ 9 10 _ rfl (by decide) (by decide) (by decide)]
  rw [cnr_cell_step row 3 4 _ 10 11 _ _ rfl rfl (by decide) (by decide)
    (by decide) h3]
  rw [cnr_space_step row 4 _ 11 12 _ rfl (by decide) (by decide) (by decide)]
  rw [cnr_cell_step row 4 5 _ 12 13 _ _ rfl rfl (by decide) (by decide)
    (by decide) h4]
  rw [cnr_space_step row 5 _ 13 14 _ rfl (by decide) (by decide) (by decide)]
  rw [cnr_cell_step row 5 6 _ 14 15 _ _ rfl rfl (by decide) (by decide)
    (by decide) h5]
  rw [cnr_space_step row 6 _ 15 16 _ rfl (by decide) (by decide) (by decide)]
  rw [cnr_bar_step row 6 _ 16 17 _ rfl (by decide) (by decide)]
  rw [cnr_space_step row 6 _ 17 18 _ rfl (by decide) (by decide) (by decide)]
  rw [cnr_cell_step row 6 7 _ 18 19 _ _ rfl rfl (by decide) (by decide)
    (by decide) h6]
  rw [cnr_space_step row 7 _ 19 20 _ rfl (by decide) (by decide) (by decide)]
  rw [cnr_cell_step row 7 8 _ 20 21 _ _ rfl rfl (by decide) (by decide)
    (by decide) h7]
  rw [cnr_space_step row 8 _ 21 22 _ rfl (by decide) (by decide) (by decide)]
  rw [cnr_cell_step row 8 9 _ 22 23 _ _ rfl rfl (by decide) (by decide)
    (by decide) h8]
  rw [cnr_space_step row 9 _ 23 24 _ rfl (by decide) (by decide) (by decide)]
  rw [cnr_bar_step row 9 _ 24 25 _ rfl (by decide) (by decide)]
  rw [cnr_end]
  rfl

/-- `load` on a border-led stream hands over to the ASCII loader. -/
theorem load_on_ascii (g : Grid) (rest : List Char) :
    load g (pm_row ++ rest) = load_ascii_format g rest := by
  cases rest with
  | nil => rfl
  | cons c r => rfl

/-- A successful `check_normal_row` advances the loader state. -/
theorem step_normal_ok {row : Nat} {g G : Grid} {input rest : List Char}
    (h : check_normal_row_loop row 0 g 0 input = (true, G, rest)) :
    step_normal row (true, g, input) = (true, G, rest) := h

/-- A border line advances the loader state. -/
theorem step_pm_ok {g : Grid} {rest : List Char} :
    step_pm (true, g, pm_row ++ rest) = (true, g, rest) := by
  cases rest with
  | nil => rfl
  | cons c r => rfl

/-- The final border line consumes the rest of a well-formed stream. -/
theorem step_pm_last {g : Grid} :
    step_pm (true, g, pm_row) = (true, g, []) := rfl

/-! ### The loaded grid, cell by cell -/

/-- Writing a row of cells preserves the grid length. -/
theorem foldSet_length (row : Nat) (f : Nat → Nat) :
    ∀ (cols : List Nat) (g : Grid),
    ((cols.foldl (fun h j => cellSet h row j (f j)) g).length = g.length) := by
  intro cols
  induction cols with
  | nil => intro g; rfl
  | cons c cs ih =>
    intro g
    rw [List.foldl_cons, ih, cellSet_length]

/-- Writing a row of cells leaves untouched positions unchanged. -/
theorem foldSet_getD_out (row : Nat) (f : Nat → Nat) :
    ∀ (cols : List Nat) (g : Grid) (k : Nat),
    (∀ j ∈ cols, k ≠ idx row j) →
    ((cols.foldl (fun h j => cellSet h row j (f j)) g).getD k 0 =
      g.getD k 0) := by
  intro cols
  induction cols with
  | nil => intro g k _; rfl
  | cons c cs ih =>
    intro g k hk
    rw [List.foldl_cons, ih _ _ (fun j hj => hk j (List.mem_cons_of_mem c hj))]
    unfold cellSet
    rw [getD_set_ne (Ne.symm (hk c (List.mem_cons_self c cs)))]

/-- Writing a row of cells stores `f j` at column `j`. -/
theorem foldSet_getD_mem (row : Nat) (f : Nat → Nat) :
    ∀ (cols : List Nat) (g : Grid) (j : Nat), j ∈ cols → cols.Nodup →
    idx row j < g.length →
    ((cols.foldl (fun h j' => cellSet h row j' (f j')) g).getD (idx row j) 0 =
      f j) := by
  intro cols
  induction cols with
  | nil => intro g j hj; cases hj
  | cons c cs ih =>
    intro g j hj hnd hlen
    rw [List.foldl_cons]
    rcases List.mem_cons.mp hj with rfl | hmem
    · have hout : ∀ j' ∈ cs, idx row j ≠ idx row j' := by
        intro j' hj' he
        have hjj : j = j' := by unfold idx at he; omega
        exact (List.nodup_cons.mp hnd).1 (hjj ▸ hj')
      rw [foldSet_getD_out row f cs _ _ hout]
      unfold cellSet
      rw [getD_set_self hlen]
    · exact ih _ j hmem (List.nodup_cons.mp hnd).2
        (by rw [cellSet_length]; exact hlen)

/-- `setRow` preserves the grid length. -/
theorem setRow_length (g : Grid) (row : Nat) (f : Nat → Nat) :
    (setRow g row f).length = g.length :=
  foldSet_length row f (List.range 9) g

/-- `setRow` leaves positions outside the row unchanged. -/
theorem setRow_getD_out (g : Grid) (row : Nat) (f : Nat → Nat) (k : Nat)
    (hk : ∀ j, j < 9 → k ≠ idx row j) :
    (setRow g row f).getD k 0 = g.getD k 0 :=
  foldSet_getD_out row f (List.range 9) g k
    (fun j hj => hk j (List.mem_range.mp hj))

/-- `setRow` stores `f j` at column `j`. -/
theorem setRow_getD_mem (g : Grid) (row : Nat) (f : Nat → Nat) (j : Nat)
    (hj : j < 9) (hlen : idx row j < g.length) :
    (setRow g row f).getD (idx row j) 0 = f j :=
  foldSet_getD_mem row f (List.range 9) g j (List.mem_range.mpr hj)
    (List.nodup_range 9) hlen

/-- `loadRowG` preserves the grid length. -/
theorem loadRowG_length (g : Grid) (row : Nat) (cells : List Char) (i : Nat) :
    (loadRowG g row cells i).length = g.length :=
  setRow_length g row _

/-- Loading all rows preserves the grid length. -/
theorem foldRows_length (cells : List Char) :
    ∀ (rows : List Nat) (g : Grid),
    ((rows.foldl (fun h r => loadRowG h r cells r) g).length = g.length) := by
  intro rows
  induction rows with
  | nil => intro g; rfl
  | cons r rs ih =>
    intro g
    rw [List.foldl_cons, ih]
    exact loadRowG_length g r cells r

/-- Loading rows leaves positions outside those rows unchanged. -/
theorem foldRows_getD_out (cells : List Char) :
    ∀ (rows : List Nat) (g : Grid) (k : Nat),
    (∀ r ∈ rows, ∀ j, j < 9 → k ≠ idx r j) →
    ((rows.foldl (fun h r => loadRowG h r cells r) g).getD k 0 =
      g.getD k 0) := by
  intro rows
  induction rows with
  | nil => intro g k _; rfl
  | cons r rs ih =>
    intro g k hk
    rw [List.foldl_cons, ih _ _ (fun r' hr' => hk r' (List.mem_cons_of_mem r hr'))]
    exact setRow_getD_out g r _ k (fun j hj => hk r (List.mem_cons_self r rs) j hj)

/-- Loading rows stores the decoded cell character at each position. -/
theorem foldRows_getD_mem (cells : List Char) :
    ∀ (rows : List Nat) (g : Grid) (i j : Nat), i ∈ rows → rows.Nodup →
    j < 9 → idx i j < g.length →
    ((rows.foldl (fun h r => loadRowG h r cells r) g).getD (idx i j) 0 =
      loadCell (cells.getD (9 * i + j) ' ')) := by
  intro rows
  induction rows with
  | nil => intro g i j hi; cases hi
  | cons r rs ih =>
    intro g i j hi hnd hj hlen
    rw [List.foldl_cons]
    rcases List.mem_cons.mp hi with rfl | hmem
    · have hout : ∀ r' ∈ rs, ∀ j', j' < 9 → idx i j ≠ idx r' j' := by
        intro r' hr' j' hj' he
        have hir : i = r' := by unfold idx at he; omega
        exact (List.nodup_cons.mp hnd).1 (hir ▸ hr')
      rw [foldRows_getD_out cells rs _ _ hout]
      exact setRow_getD_mem g i _ j hj hlen
    · apply ih _ i j hmem (List.nodup_cons.mp hnd).2 hj
      rw [loadRowG_length]
      exact hlen

/-- `loadedGrid` unfolded to its nine row loads. -/
theorem loadedGrid_eq (g : Grid) (cells : List Char) :
    loadedGrid g cells =
    loadRowG (loadRowG (loadRowG (loadRowG (loadRowG (loadRowG (loadRowG
      (loadRowG (loadRowG g 0 cells 0) 1 cells 1) 2 cells 2) 3 cells 3)
      4 cells 4) 5 cells 5) 6 cells 6) 7 cells 7) 8 cells 8 := by
  unfold loadedGrid
  rw [show List.range 9 = [0, 1, 2, 3, 4, 5, 6, 7, 8] from rfl]
  simp only [List.foldl_cons, List.foldl_nil]

/-- The value the ASCII loader leaves at cell `(i, j)`. -/
theorem loadedGrid_getD (g : Grid) (cells : List Char) {i j : Nat}
    (hi : i < 9) (hj : j < 9) (hg : idx i j < g.length) :
    (loadedGrid g cells).getD (idx i j) 0 =
      loadCell (cells.getD (9 * i + j) ' ') :=
  foldRows_getD_mem cells (List.range 9) g i j (List.mem_range.mpr hi)
    (List.nodup_range 9) hj hg

/-! ### The printer side of the round trip -/

/-- `getD` through a `map`, inside the list. -/
theorem getD_map_lt {l : List Char} {k : Nat} (h : k < l.length)
    (f : Char → Char) (d : Char) : (l.map f).getD k d = f (l.getD k d) := by
  rw [List.getD_eq_getElem _ _ (by simpa using h), List.getD_eq_getElem _ _ h,
    List.getElem_map]

/-- Printing the value loaded from an accepted cell character gives the
normalized character. -/
theorem printCell_loadCell {c : Char} (hc : c ∈ validChars) :
    printCell (loadCell c) = [normCell c, ' '] := by
  simp only [validChars, List.mem_cons, List.not_mem_nil, or_false] at hc
  rcases hc with rfl | rfl | rfl | rfl | rfl | rfl | rfl | rfl | rfl | rfl | rfl | rfl
  all_goals decide

/-- Each printed row of the loaded grid is the normalized input row. -/
theorem printRow_loaded (g : Grid) (cells : List Char) (hg : g.length = 81)
    (hclen : 81 ≤ cells.length)
    (hcell : ∀ k, k < 81 → cells.getD k ' ' ∈ validChars)
    (i : Nat) (hi : i < 9) :
    printRow (loadedGrid g cells) i = rowLine (cells.map normCell) i := by
  have hc : ∀ j, j < 9 →
      printCell (cellGet (loadedGrid g cells) i j) =
      [normCell (cells.getD (9 * i + j) ' '), ' '] := by
    intro j hj
    have hidx : idx i j < g.length := by unfold idx; omega
    show printCell ((loadedGrid g cells).getD (idx i j) 0) = _
    rw [loadedGrid_getD g cells hi hj hidx]
    exact printCell_loadCell (hcell (9 * i + j) (by omega))
  have hm : ∀ k, k < 81 →
      (cells.map normCell).getD k ' ' = normCell (cells.getD k ' ') := by
    intro k hk
    exact getD_map_lt (by omega) normCell ' '
  unfold printRow rowLine
  rw [hc 0 (by omega), hc 1 (by omega), hc 2 (by omega), hc 3 (by omega),
    hc 4 (by omega), hc 5 (by omega), hc 6 (by omega), hc 7 (by omega),
    hc 8 (by omega)]
  rw [hm (9 * i) (by omega), hm (9 * i + 1) (by omega), hm (9 * i + 2) (by omega),
    hm (9 * i + 3) (by omega), hm (9 * i + 4) (by omega), hm (9 * i + 5) (by omega),
    hm (9 * i + 6) (by omega), hm (9 * i + 7) (by omega), hm (9 * i + 8) (by omega)]
  simp

/-- C7 counterexample: the numeric format does not round trip — `print`
always emits the bordered layout, so printing the grid loaded from 81
consecutive digits does not reproduce the input text, even after open-cell
normalization. -/
theorem load_print_roundtrip_counterexample :
    (load blankGrid numericInput).1 = true ∧
    (load blankGrid numericInput).2.2 = [] ∧
    print (load blankGrid numericInput).2.1 ≠ numericInput ∧
    print (load blankGrid numericInput).2.1 ≠ numericInput.map normCell := by
  decide

set_option maxHeartbeats 2000000 in
/-- C7 (amended): the round trip holds for the bordered ASCII format. For
any 81 cell characters each drawn from the accepted alphabet
(`.`, `0`, `!`, `1`..`9`), the loader accepts the bordered text built from
them, consumes it entirely, and printing the loaded grid reproduces the
text with every open cell entered as `0` normalized to `.`. The numeric
format does not round trip, since `print` always emits the bordered
layout. -/
theorem load_print_bordered_roundtrip (g : Grid) (hg : g.length = 81)
    (cells : List Char)
    (hcell : ∀ k, k < 81 → cells.getD k ' ' ∈ validChars) :
    (load g (asciiText cells)).1 = true ∧
    (load g (asciiText cells)).2.2 = [] ∧
    print (load g (asciiText cells)).2.1 = asciiText (cells.map normCell) := by
  have hclen : 81 ≤ cells.length := by
    by_contra hn
    have h1 : cells.getD cells.length ' ' = ' ' :=
      List.getD_eq_default _ _ (le_refl _)
    have h2 := hcell cells.length (by omega)
    rw [h1] at h2
    exact absurd h2 (by decide)
  have hload : load g (asciiText cells) = (true, loadedGrid g cells, []) := by
    unfold asciiText
    rw [load_on_ascii]
    unfold load_ascii_format
    rw [step_normal_ok (check_normal_row_ok 0 g cells 0 _
      (hcell (9 * 0) (by decide)) (hcell (9 * 0 + 1) (by decide))
      (hcell (9 * 0 + 2) (by decide)) (hcell (9 * 0 + 3) (by decide))
      (hcell (9 * 0 + 4) (by decide)) (hcell (9 * 0 + 5) (by decide))
      (hcell (9 * 0 + 6) (by decide)) (hcell (9 * 0 + 7) (by decide))
      (hcell (9 * 0 + 8) (by decide)))]
    rw [step_normal_ok (check_normal_row_ok 1 _ cells 1 _
      (hcell (9 * 1) (by decide)) (hcell (9 * 1 + 1) (by decide))
      (hcell (9 * 1 + 2) (by decide)) (hcell (9 * 1 + 3) (by decide))
      (hcell (9 * 1 + 4) (by decide)) (hcell (9 * 1 + 5) (by decide))
      (hcell (9 * 1 + 6) (by decide)) (hcell (9 * 1 + 7) (by decide))
      (hcell (9 * 1 + 8) (by decide)))]
    rw [step_normal_ok (check_normal_row_ok 2 _ cells 2 _
      (hcell (9 * 2) (by decide)) (hcell (9 * 2 + 1) (by decide))
      (hcell (9 * 2 + 2) (by decide)) (hcell (9 * 2 + 3) (by decide))
      (hcell (9 * 2 + 4) (by decide)) (hcell (9 * 2 + 5) (by decide))
      (hcell (9 * 2 + 6) (by decide)) (hcell (9 * 2 + 7) (by decide))
      (hcell (9 * 2 + 8) (by decide)))]
    rw [step_pm_ok]
    rw [step_normal_ok (check_normal_row_ok 3 _ cells 3 _
      (hcell (9 * 3) (by decide)) (hcell (9 * 3 + 1) (by decide))
      (hcell (9 * 3 + 2) (by decide)) (hcell (9 * 3 + 3) (by decide))
      (hcell (9 * 3 + 4) (by decide)) (hcell (9 * 3 + 5) (by decide))
      (hcell (9 * 3 + 6) (by decide)) (hcell (9 * 3 + 7) (by decide))
      (hcell (9 * 3 + 8) (by decide)))]
    rw [step_normal_ok (check_normal_row_ok 4 _ cells 4 _
      (hcell (9 * 4) (by decide)) (hcell (9 * 4 + 1) (by decide))
      (hcell (9 * 4 + 2) (by decide)) (hcell (9 * 4 + 3) (by decide))
      (hcell (9 * 4 + 4) (by decide)) (hcell (9 * 4 + 5) (by decide))
      (hcell (9 * 4 + 6) (by decide)) (hcell (9 * 4 + 7) (by decide))
      (hcell (9 * 4 + 8) (by decide)))]
    rw [step_normal_ok (check_normal_row_ok 5 _ cells 5 _
      (hcell (9 * 5) (by decide)) (hcell (9 * 5 + 1) (by decide))
      (hcell (9 * 5 + 2) (by decide)) (hcell (9 * 5 + 3) (by decide))
      (hcell (9 * 5 + 4) (by decide)) (hcell (9 * 5 + 5) (by decide))
      (hcell (9 * 5 + 6) (by decide)) (hcell (9 * 5 + 7) (by decide))
      (hcell (9 * 5 + 8) (by decide)))]
    rw [step_pm_ok]
    rw [step_normal_ok (check_normal_row_ok 6 _ cells 6 _
      (hcell (9 * 6) (by decide)) (hcell (9 * 6 + 1) (by decide))
      (hcell (9 * 6 + 2) (by decide)) (hcell (9 * 6 + 3) (by decide))
      (hcell (9 * 6 + 4) (by decide)) (hcell (9 * 6 + 5) (by decide))
      (hcell (9 * 6 + 6) (by decide)) (hcell (9 * 6 + 7) (by decide))
      (hcell (9 * 6 + 8) (by decide)))]
    rw [step_normal_ok (check_normal_row_ok 7 _ cells 7 _
      (hcell (9 * 7) (by decide)) (hcell (9 * 7 + 1) (by decide))
      (hcell (9 * 7 + 2) (by decide)) (hcell (9 * 7 + 3) (by decide))
      (hcell (9 * 7 + 4) (by decide)) (hcell (9 * 7 + 5) (by decide))
      (hcell (9 * 7 + 6) (by decide)) (hcell (9 * 7 + 7) (by decide))
      (hcell (9 * 7 + 8) (by decide)))]
    rw [step_normal_ok (check_normal_row_ok 8 _ cells 8 _
      (hcell (9 * 8) (by decide)) (hcell (9 * 8 + 1) (by decide))
      (hcell (9 * 8 + 2) (by decide)) (hcell (9 * 8 + 3) (by decide))
      (hcell (9 * 8 + 4) (by decide)) (hcell (9 * 8 + 5) (by decide))
      (hcell (9 * 8 + 6) (by decide)) (hcell (9 * 8 + 7) (by decide))
      (hcell (9 * 8 + 8) (by decide)))]
    rw [step_pm_last, loadedGrid_eq]
  have hprint : print (loadedGrid g cells) = asciiText (cells.map normCell) := by
    unfold print asciiText
    rw [printRow_loaded g cells hg hclen hcell 0 (by omega),
      printRow_loaded g cells hg hclen hcell 1 (by omega),
      printRow_loaded g cells hg hclen hcell 2 (by omega),
      printRow_loaded g cells hg hclen hcell 3 (by omega),
      printRow_loaded g cells hg hclen hcell 4 (by omega),
      printRow_loaded g cells hg hclen hcell 5 (by omega),
      printRow_loaded g cells hg hclen hcell 6 (by omega),
      printRow_loaded g cells hg hclen hcell 7 (by omega),
      printRow_loaded g cells hg hclen hcell 8 (by omega)]
  have hq : ∀ G : Grid,
      ((true, G, ([] : List Char)) : Bool × Grid × List Char).1 = true :=
    fun G => rfl
  have hr : ∀ G : Grid,
      ((true, G, ([] : List Char)) : Bool × Grid × List Char).2.2 = [] :=
    fun G => rfl
  have hp : ∀ G : Grid,
      ((true, G, ([] : List Char)) : Bool × Grid × List Char).2.1 = G :=
    fun G => rfl
  have c1 := (congrArg (fun p : Bool × Grid × List Char => p.1) hload).trans
    (hq (loadedGrid g cells))
  have c2 := (congrArg (fun p : Bool × Grid × List Char => p.2.2) hload).trans
    (hr (loadedGrid g cells))
  have c3 := (congrArg (fun p : Bool × Grid × List Char => print p.2.1)
    hload).trans ((congrArg print (hp (loadedGrid g cells))).trans hprint)
  exact ⟨c1, c2, c3⟩

/-- The 81 cell characters of the concrete bordered input used as the
round-trip witness: an open `0`, a blanked `!`, a given `5`, and open
dots. -/
def witnessCells : List Char := '0' :: '!' :: '5' :: List.replicate 78 '.'

/-- C7 witness: the round trip on a concrete bordered text. -/
theorem load_print_bordered_roundtrip_witness :
    (load blankGrid (asciiText witnessCells)).1 = true ∧
    (load blankGrid (asciiText witnessCells)).2.2 = [] ∧
    print (load blankGrid (asciiText witnessCells)).2.1 =
      asciiText (witnessCells.map normCell) :=
  load_print_bordered_roundtrip blankGrid (by decide) witnessCells (by decide)

/-! ## C10: the nine-bit cell invariant -/

/-- Every accepted ASCII cell character loads to a nine-bit value. -/
theorem loadCell_sub {c : Char} (hc : c ∈ validChars) :
    sub (loadCell c) NINE_ONES := by
  simp only [validChars, List.mem_cons, List.not_mem_nil, or_false] at hc
  rcases hc with rfl | rfl | rfl | rfl | rfl | rfl | rfl | rfl | rfl | rfl | rfl | rfl
  all_goals decide

/-- The generator's loop preserves well-formedness: it only writes
`NINE_ONES`. -/
theorem generate_loop_WellFormed : ∀ (fuel : Nat) (rnd : Nat → Nat) (t : Nat)
    (g : Grid), WellFormed g → WellFormed (generate_loop fuel rnd t g) := by
  intro fuel
  induction fuel with
  | zero => intro rnd t g hw; exact hw
  | succ fuel ih =>
    intro rnd t g hw
    rw [generate_loop_succ]
    by_cases hm : (is_solvable g).length = 0
    · rw [if_pos hm]; exact hw
    · rw [if_neg hm]
      apply ih
      refine ⟨by rw [List.length_set]; exact hw.1, ?_⟩
      intro i hi
      by_cases he : (is_solvable g).getD (rnd t % (is_solvable g).length) 0 = i
      · rw [← he, getD_set_self']
        by_cases hlt :
            (is_solvable g).getD (rnd t % (is_solvable g).length) 0 < g.length
        · rw [if_pos hlt]; exact sub_refl _
        · rw [if_neg hlt]
          rw [he]
          exact hw.2 i hi
      · rw [getD_set_ne he]
        exact hw.2 i hi

/-- C10: every operation of the core preserves the nine-bit cell invariant.
The ASCII loader writes only `EMPTY_CELL`, a single digit bit, or
`NINE_ONES` (and so does the numeric loader at each digit); the loaded grid,
the three eliminations, `solve`, `generic_solve` and `generate` all leave
every cell inside the nine-bit universe; the backtracker's trial write is
always a single digit bit. -/
theorem nine_bit_invariant (g : Grid) (hwf : WellFormed g) :
    (∀ c, c ∈ validChars →
      loadCell c = EMPTY_CELL ∨ isDigitBit (loadCell c) ∨
      loadCell c = NINE_ONES) ∧
    (∀ c, isdigitChar c = true →
      (if c = '0' then NINE_ONES else bitset_add 0 (c.toNat - 48)) =
        NINE_ONES ∨
      isDigitBit (if c = '0' then NINE_ONES
        else bitset_add 0 (c.toNat - 48))) ∧
    (∀ cells, (∀ k, k < 81 → cells.getD k ' ' ∈ validChars) →
      WellFormed (loadedGrid g cells)) ∧
    (∀ r, WellFormed (eliminate_row g r).1) ∧
    (∀ c, WellFormed (eliminate_col g c).1) ∧
    (∀ a b, WellFormed (eliminate_box g a b).1) ∧
    WellFormed (solve g).grid ∧
    (∀ i, i < 81 → sub ((generic_solve g).2.getD i 0) NINE_ONES) ∧
    (∀ r c num, 1 ≤ num → num ≤ 9 → idx r c < g.length →
      isDigitBit ((trial g r c num).getD (idx r c) 0)) ∧
    (∀ rnd, WellFormed (generate rnd g)) := by
  refine ⟨?_, ?_, ?_, ?_, ?_, ?_, ?_, ?_, ?_, ?_⟩
  · intro c hc
    simp only [validChars, List.mem_cons, List.not_mem_nil, or_false] at hc
    rcases hc with rfl | rfl | rfl | rfl | rfl | rfl | rfl | rfl | rfl | rfl | rfl | rfl
    all_goals decide
  · intro c hdc
    have hn := of_decide_eq_true hdc
    by_cases h0 : c = '0'
    · left; rw [if_pos h0]
    · right
      rw [if_neg h0]
      refine ⟨c.toNat - 48 - 1, by omega, ?_⟩
      show 0 ||| 1 <<< (c.toNat - 48 - 1) = 1 <<< (c.toNat - 48 - 1)
      exact Nat.zero_or _
  · intro cells hcell
    refine ⟨?_, ?_⟩
    · rw [show (loadedGrid g cells).length = g.length from
        foldRows_length cells (List.range 9) g, hwf.1]
    · intro k hk
      have hidx : idx (k / 9) (k % 9) = k := by unfold idx; omega
      rw [← hidx, loadedGrid_getD g cells (by omega) (by omega)
        (by rw [hidx, hwf.1]; omega)]
      have hix : 9 * (k / 9) + k % 9 = k := by omega
      rw [hix]
      exact loadCell_sub (hcell k hk)
  · intro r
    exact WellFormed_of_sub hwf (eliminate_row_len g r)
      (fun i _ => eliminate_row_sub g r i)
  · intro c
    exact WellFormed_of_sub hwf (eliminate_col_len g c)
      (fun i _ => eliminate_col_sub g c i)
  · intro a b
    exact WellFormed_of_sub hwf (eliminate_box_len g a b)
      (fun i _ => eliminate_box_sub g a b i)
  · exact solve_WellFormed hwf
  · intro i hi
    exact sub_trans (generic_solve_fuel_sub (gridSum g + 1) g i) (hwf.2 i hi)
  · intro r c num h1 h9 hlt
    rw [trial_getD_eq g r c num hlt]
    exact ⟨num - 1, by omega, rfl⟩
  · intro rnd
    exact generate_loop_WellFormed 82 rnd 0 g hwf

/-- C10 witness: the nine-bit invariant at the concrete solved grid. -/
theorem nine_bit_invariant_witness :
    WellFormed solvedGrid ∧ WellFormed (solve solvedGrid).grid ∧
    (∀ rnd, WellFormed (generate rnd solvedGrid)) :=
  ⟨by decide, (nine_bit_invariant solvedGrid (by decide)).2.2.2.2.2.2.1,
    (nine_bit_invariant solvedGrid (by decide)).2.2.2.2.2.2.2.2.2⟩

end SudokuC
